import Mathlib

/-!
OpenEM detection post-processing (deploy/src/detect.cc, deploy/src/image.cc)

A shallow embedding of the box decoder, the class selector, the non-maximum
suppression and the batch loop of `Detector::Process`.

Conventions of the embedding

* `float` and `double` values are rationals (`ℚ`); infinities and NaN are
  outside the model.  A NaN score would fail the test
  `scores[i] > score_threshold` and never reach the sort.  The `float`
  arithmetic of the decoder and of the overlap is exact.  The `double`
  operations that fix a detection's pixel location, the quotient of `AddImage`
  and the products of lines 242-245, are rounded by `roundDouble`.
* `int` values are mathematical integers; container sizes are assumed to fit
  an `int` (the source indexes them with `int` counters).  The one product of
  unbounded inputs, `width * height * channels` in `Image::FromData`, is
  evaluated with the 32-bit wrap `wrapInt32`.
* A conversion `float -> int` truncates toward zero (`truncToInt`).
* `cv::exp` is a parameter `exp : ℚ → ℚ` of the decoder.
* OpenCV helpers (`cv::Rect`, `operator&`, `cv::jaccardDistance`,
  `cv::minMaxLoc`, column ranges of a `cv::Mat`) and the standard algorithms
  `std::stable_sort` and `std::sort` are written out as list functions.
* `Option.none` stands for a run the source leaves without a result: a failed
  `CV_Assert`, an out-of-range `operator[]`, a `minMaxLoc` over no columns.
* The headers `detect.h` and `error_codes.h` are not among the sources; the
  struct `Detection` and the enum `ErrorCode` follow their use in `detect.cc`.
-/

namespace OpenEM

/-! ## Rectangles and overlap -/

/-- The integer rectangle `cv::Rect`: top-left corner, width and height. -/
structure Rect where
  x : Int
  y : Int
  width : Int
  height : Int
deriving DecidableEq, Repr

namespace Rect

/-- Area `width * height` of a rectangle (`cv::Rect::area`). -/
def area (r : Rect) : Int := r.width * r.height

/-- Intersection `a & b` of two rectangles; the empty rectangle `Rect()` when
they do not overlap. -/
def inter (a b : Rect) : Rect :=
  let x1 := max a.x b.x
  let y1 := max a.y b.y
  let w := min (a.x + a.width) (b.x + b.width) - x1
  let h := min (a.y + a.height) (b.y + b.height) - y1
  if w ≤ 0 ∨ h ≤ 0 then ⟨0, 0, 0, 0⟩ else ⟨x1, y1, w, h⟩

end Rect

/-- The Jaccard distance `cv::jaccardDistance(a, b)` of two integer rectangles:
`0` when both areas sum to at most zero, else `1 - |a ∩ b| / |a ∪ b|`. -/
def jaccardDistance (a b : Rect) : ℚ :=
  let Aa := a.area
  let Ab := b.area
  if Aa + Ab ≤ 0 then 0
  else
    let Aab : ℚ := ((a.inter b).area : ℚ)
    1 - Aab / (((Aa + Ab : Int) : ℚ) - Aab)

/-! ## Standard algorithms -/

/-- The algorithm `std::stable_sort(first, last, comp)` for a strict comparator
`comp`: insertion from the right, an element is placed behind exactly the
elements that `comp` puts strictly before it, so equal elements keep their
order. -/
def stable_sort {α : Type} (comp : α → α → Bool) (l : List α) : List α :=
  List.insertionSort (fun a b => comp b a = false) l

/-! ## Non-maximum suppression -/

/-- The first loop of `NmsBoxes` (lines 125-129): starting at index `i`, the
pairs `(scores[i], i)` of the scores above the threshold, in index order. -/
def scoreIndexFrom (score_threshold : ℚ) : List ℚ → Nat → List (ℚ × Nat)
  | [], _ => []
  | s :: rest, i =>
    if s > score_threshold then (s, i) :: scoreIndexFrom score_threshold rest (i + 1)
    else scoreIndexFrom score_threshold rest (i + 1)

/-- The test of the inner loop of `NmsBoxes` (lines 145-150): the candidate
`idx` is kept when its overlap with every index kept so far is at most the
threshold. -/
def nmsKeep (bboxes : List Rect) (nms_threshold : ℚ) (indices : List Nat) (idx : Nat) : Bool :=
  indices.all (fun kept_idx =>
    decide (1 - jaccardDistance (bboxes.getD idx ⟨0, 0, 0, 0⟩) (bboxes.getD kept_idx ⟨0, 0, 0, 0⟩)
      ≤ nms_threshold))

/-- The outer loop of `NmsBoxes` (lines 143-154) over the sorted candidates,
`indices` being the indices kept so far. -/
def nmsLoop (bboxes : List Rect) (nms_threshold : ℚ) : List (ℚ × Nat) → List Nat → List Nat
  | [], indices => indices
  | (_, idx) :: rest, indices =>
    if nmsKeep bboxes nms_threshold indices idx then
      nmsLoop bboxes nms_threshold rest (indices ++ [idx])
    else nmsLoop bboxes nms_threshold rest indices

/-- The candidate vector of `NmsBoxes` after the stable sort by descending
score and the truncation to `top_k` (lines 124-141). -/
def sortedCandidates (scores : List ℚ) (score_threshold : ℚ) (top_k : Int) : List (ℚ × Nat) :=
  let score_index_vec :=
    stable_sort (fun pair1 pair2 => decide (pair1.1 > pair2.1))
      (scoreIndexFrom score_threshold scores 0)
  if 0 < top_k ∧ top_k < (score_index_vec.length : Int) then
    score_index_vec.take top_k.toNat
  else score_index_vec

/-- The function `NmsBoxes`: the kept indices, or `none` when one of the three
`CV_Assert` preconditions fails. -/
def NmsBoxes (bboxes : List Rect) (scores : List ℚ) (score_threshold nms_threshold : ℚ)
    (top_k : Int) : Option (List Nat) :=
  if bboxes.length = scores.length ∧ 0 ≤ score_threshold ∧ 0 ≤ nms_threshold then
    some (nmsLoop bboxes nms_threshold (sortedCandidates scores score_threshold top_k) [])
  else none

/-- The overlap test of `NmsBoxes` between the boxes at two indices:
`1 - jaccardDistance(bboxes[i], bboxes[j]) <= nms_threshold`. -/
def overlapOk (bboxes : List Rect) (thr : ℚ) (i j : Nat) : Prop :=
  1 - jaccardDistance (bboxes.getD i ⟨0, 0, 0, 0⟩) (bboxes.getD j ⟨0, 0, 0, 0⟩) ≤ thr

/-! ## Box decoding -/

/-- A matrix `cv::Mat` of type `CV_32F`: the list of its rows. -/
abbrev Mat := List (List ℚ)

/-- The size `cv::Size` of the network input. -/
structure Size where
  width : Int
  height : Int
deriving DecidableEq, Repr

/-- Conversion of a `float` to `int`: truncation toward zero. -/
def truncToInt (q : ℚ) : Int := if 0 ≤ q then ⌊q⌋ else ⌈q⌉

/-- The two `setTo` calls on one decoded coordinate (lines 96-103): values
below `0` become `0`, then values at or above `limit` become `limit`. -/
def clampCoord (v : ℚ) (limit : Int) : ℚ :=
  let v1 := if v < 0 then 0 else v
  if v1 ≥ (limit : ℚ) then (limit : ℚ) else v1

/-- The clamped corner coordinates of one proposal. -/
structure Corners where
  x0 : ℚ
  y0 : ℚ
  x1 : ℚ
  y1 : ℚ
deriving DecidableEq

/-- Lines 80-103 of `DecodeBoxes` on one row: `loc`, `anchor` and `variance`
are the rows of the three matrices, `exp` stands for `cv::exp`. -/
def decodeCorners (exp : ℚ → ℚ) (loc anchor variance : List ℚ) (img_size : Size) : Corners :=
  let anchor_width := anchor.getD 2 0 - anchor.getD 0 0
  let anchor_height := anchor.getD 3 0 - anchor.getD 1 0
  let anchor_center_x := (1 / 2) * (anchor.getD 2 0 + anchor.getD 0 0)
  let anchor_center_y := (1 / 2) * (anchor.getD 3 0 + anchor.getD 1 0)
  let decode_center_x := loc.getD 0 0 * anchor_width * variance.getD 0 0 + anchor_center_x
  let decode_center_y := loc.getD 1 0 * anchor_height * variance.getD 1 0 + anchor_center_y
  let decode_width := exp (loc.getD 2 0 * variance.getD 2 0) * anchor_width
  let decode_height := exp (loc.getD 3 0 * variance.getD 3 0) * anchor_height
  let decode_x0 := (decode_center_x - (1 / 2) * decode_width) * (img_size.width : ℚ)
  let decode_y0 := (decode_center_y - (1 / 2) * decode_height) * (img_size.height : ℚ)
  let decode_x1 := (decode_center_x + (1 / 2) * decode_width) * (img_size.width : ℚ)
  let decode_y1 := (decode_center_y + (1 / 2) * decode_height) * (img_size.height : ℚ)
  { x0 := clampCoord decode_x0 img_size.width
    y0 := clampCoord decode_y0 img_size.height
    x1 := clampCoord decode_x1 img_size.width
    y1 := clampCoord decode_y1 img_size.height }

/-- The rectangle built from the clamped corners (lines 105-109), each
argument converted to `int`. -/
def cornersRect (c : Corners) : Rect :=
  { x := truncToInt c.x0
    y := truncToInt c.y0
    width := truncToInt (c.x1 - c.x0 + 1)
    height := truncToInt (c.y1 - c.y0 + 1) }

/-- The function `DecodeBoxes`: one rectangle per row of `loc`; the three
matrices have the same number of rows. -/
def DecodeBoxes (exp : ℚ → ℚ) : Mat → Mat → Mat → Size → List Rect
  | l :: loc, a :: anchors, v :: variances, img_size =>
    cornersRect (decodeCorners exp l a v img_size) :: DecodeBoxes exp loc anchors variances img_size
  | _, _, _, _ => []

/-! ## Class selection -/

/-- The scan of `cv::minMaxLoc` for the maximum: `best` is the running maximum
with its position, a later value replaces it only when strictly greater. -/
def maxLocFrom : List ℚ → Nat → ℚ × Nat → ℚ × Nat
  | [], _, best => best
  | v :: vs, i, best => maxLocFrom vs (i + 1) (if v > best.1 then (v, i) else best)

/-- The invariant of the maximum scan over the processed prefix `l`: `best` is
a value of `l` at position `best.2`, no value of `l` exceeds it and every
earlier value is strictly smaller. -/
def MaxAt (l : List ℚ) (best : ℚ × Nat) : Prop :=
  l[best.2]? = some best.1 ∧ (∀ (k : Nat) (v : ℚ), l[k]? = some v → v ≤ best.1) ∧
    (∀ (k : Nat) (v : ℚ), k < best.2 → l[k]? = some v → v < best.1)

/-- The maximum outputs of `cv::minMaxLoc` on a matrix of one row: the maximum
and the column of its first occurrence; `none` on a matrix without columns. -/
def minMaxLoc : List ℚ → Option (ℚ × Nat)
  | [] => none
  | v :: vs => some (maxLocFrom vs 1 (v, 0))

/-- The body of the class loop of `Process` (lines 227-236) on one row of
`conf`: the pair `(scores[r], class_index[r])`. -/
def selectClass (confRow : List ℚ) : Option (ℚ × Nat) :=
  (minMaxLoc (confRow.drop 1)).map (fun m => (m.1, m.2 + 1))

/-- The class loop of `Process` (lines 224-237) over all rows of `conf`. -/
def classSelect (conf : Mat) : Option (List (ℚ × Nat)) :=
  conf.mapM selectClass

/-! ## The batch loop -/

/-- Modelled from the spec: the enum `ErrorCode` of `error_codes.h`, a header
that is not among the source files.  The constructors are the enumerators that
`detect.cc`, `image.cc` and `util.cc` name; `kSuccess` is the status of a call
that did not fail. -/
inductive ErrorCode where
  | kSuccess
  | kErrorReadingImage
  | kErrorSavingImage
  | kErrorImageSize
  | kErrorNumChann
  | kErrorTfSession
  | kErrorGraphDims
  | kErrorNoShape
deriving DecidableEq, Repr

/-- Modelled from the spec: the struct `Detection` of `detect.h`, a header that
is not among the source files, with the three fields that `Process` assigns:
location `(x, y, w, h)` in image pixels, confidence and class index. -/
structure Detection where
  location : Rect
  confidence : ℚ
  species : Int
deriving DecidableEq

/-- The algorithm `std::sort(first, last, comp)`; the standard promises a
permutation sorted by `comp`, the insertion sort is one such result. -/
def std_sort {α : Type} (comp : α → α → Bool) (l : List α) : List α :=
  List.insertionSort (fun a b => comp b a = false) l

/-- The columns `[start, stop)` of a matrix: `p(cv::Range::all(), cv::Range(start, stop))`. -/
def colRange (p : Mat) (start stop : Int) : Mat :=
  p.map (fun row => (row.drop start.toNat).take (stop - start).toNat)

/-- The power `2 ^ e` of an integer exponent as a rational. -/
def pow2 (e : Int) : ℚ :=
  if 0 ≤ e then ((2 ^ e.toNat : Nat) : ℚ) else 1 / ((2 ^ (-e).toNat : Nat) : ℚ)

/-- The binary logarithm of `n`, rounded down, with `fuel` halving steps. -/
def log2Fuel : Nat → Nat → Nat
  | 0, _ => 0
  | fuel + 1, n => if n < 2 then 0 else log2Fuel fuel (n / 2) + 1

/-- The binary logarithm of a natural number, rounded down (`0` for `0`). -/
def natLog2 (n : Nat) : Nat := log2Fuel n n

/-- The exponent `e` with `2 ^ e <= q < 2 ^ (e + 1)` of a positive rational. -/
def floorLog2 (q : ℚ) : Int :=
  let e0 : Int := (natLog2 q.num.toNat : Int) - (natLog2 q.den : Int)
  if pow2 e0 ≤ q then e0 else e0 - 1

/-- Rounding of a non-negative rational to the nearest integer, a tie to the
even neighbour. -/
def roundHalfEven (r : ℚ) : Int :=
  let f := ⌊r⌋
  if r - (f : ℚ) < 1 / 2 then f
  else if r - (f : ℚ) > 1 / 2 then f + 1
  else if f % 2 = 0 then f else f + 1

/-- The `double` nearest to the exact value `q` (IEEE 754 binary64, round to
nearest, ties to even): 53 significant bits, below `2 ^ (-1022)` the fixed
spacing `2 ^ (-1074)` of the subnormal numbers.  It is the result of one
`double` operation whose exact result is `q`; overflow to infinity is outside
the model. -/
def roundDouble (q : ℚ) : ℚ :=
  if q = 0 then 0
  else
    let e := max (floorLog2 |q|) (-1022)
    let ulp := pow2 (e - 52)
    let m := roundHalfEven (|q| / ulp)
    if q < 0 then -((m : ℚ) * ulp) else (m : ℚ) * ulp

/-- Lines 240-247 of `Process`: the detection of the kept box `box` under the
image scale `scale`.  Each coordinate is the `int * double` product of the
source, a `double` operation (`roundDouble` of the exact product), converted
to `int`. -/
def makeDetection (box : Rect) (scale : ℚ × ℚ) (score : ℚ) (cls : Nat) : Detection :=
  { location :=
      { x := truncToInt (roundDouble ((box.x : ℚ) * scale.1))
        y := truncToInt (roundDouble ((box.y : ℚ) * scale.2))
        width := truncToInt (roundDouble ((box.width : ℚ) * scale.1))
        height := truncToInt (roundDouble ((box.height : ℚ) * scale.2)) }
    confidence := score
    species := (cls : Int) }

/-- The loop over the kept indices (lines 239-249) for image `i`: every
iteration reads `img_scale_[i]`, `boxes[idx]`, `scores[idx]` and
`class_index[idx]`. -/
def buildDetections (boxes : List Rect) (sel : List (ℚ × Nat)) (img_scale_ : List (ℚ × ℚ))
    (i : Nat) (indices : List Nat) : Option (List Detection) :=
  indices.mapM (fun idx =>
    (img_scale_[i]?).bind (fun scale =>
      (boxes[idx]?).bind (fun box =>
        (sel[idx]?).map (fun sc => makeDetection box scale sc.1 sc.2))))

/-- The boxes of one image (lines 216-220): `DecodeBoxes` on the column ranges
`loc = [0, 4)`, `anchors = [conf_stop, anc_stop)` and
`variances = [anc_stop, var_stop)` of the matrix `p`. -/
def imageBoxes (exp : ℚ → ℚ) (img_size : Size) (dim2 : Int) (p : Mat) : List Rect :=
  let pred_stop : Int := 4
  let conf_stop : Int := dim2 - 8
  let anc_stop : Int := conf_stop + 4
  let var_stop : Int := anc_stop + 4
  let loc := colRange p 0 pred_stop
  let anchors := colRange p conf_stop anc_stop
  let variances := colRange p anc_stop var_stop
  DecodeBoxes exp loc anchors variances img_size

/-- The confidence columns `conf = [pred_stop, conf_stop)` of the matrix `p`
(line 217). -/
def imageConf (dim2 : Int) (p : Mat) : Mat :=
  let pred_stop : Int := 4
  let conf_stop : Int := dim2 - 8
  colRange p pred_stop conf_stop

/-- The body of the image loop of `Process` up to the sort (lines 215-254) for
image `i` with matrix `p`; `dim2` is `outputs.back().dim_size(2)`.  A column
range of a `cv::Mat` asserts `start <= end`, hence the test `4 <= conf_stop`. -/
def imageDetections (exp : ℚ → ℚ) (img_size : Size) (dim2 : Int) (p : Mat) (i : Nat)
    (img_scale_ : List (ℚ × ℚ)) : Option (List Detection) :=
  if (4 : Int) ≤ dim2 - 8 then
    let boxes := imageBoxes exp img_size dim2 p
    (classSelect (imageConf dim2 p)).bind (fun sel =>
      (NmsBoxes boxes (sel.map Prod.fst) (1 / 100) (45 / 100) 200).bind (fun indices =>
        (buildDetections boxes sel img_scale_ i indices).map (fun dets =>
          std_sort (fun left right => decide (left.confidence > right.confidence)) dets)))
  else none

/-- A rational stand-in for `cv::exp` in concrete evaluations, the Taylor
polynomial `1 + t + t^2 / 2`: positive everywhere and `1` at `0`. -/
def expTaylor (t : ℚ) : ℚ := 1 + t + t * t / 2

/-- The state `DetectorImpl` as far as `Process` uses it: the input size of the
model and the stored image scales. -/
structure DetectorImpl where
  img_size : Size
  img_scale_ : List (ℚ × ℚ)
deriving DecidableEq

/-- What the inference call `model_.Process` hands to `Detector::Process`: its
status, the channel count `dim_size(2)` of the output tensor and the matrices
`pred` made from it by `TensorToMatVec`, one per image. -/
structure ModelOutput where
  status : ErrorCode
  dim2 : Int
  pred : List Mat

/-- The function `Detector::AddImage` for an image of the given width and
height: the scale pair is recorded, the status is the one of `model_.AddImage`.
Each scale is the `double` quotient `double(image size) / double(network size)`. -/
def AddImage (impl : DetectorImpl) (imageWidth imageHeight : Int) (modelStatus : ErrorCode) :
    ErrorCode × DetectorImpl :=
  (modelStatus,
    { impl with
      img_scale_ := impl.img_scale_ ++
        [(roundDouble ((imageWidth : ℚ) / (impl.img_size.width : ℚ)),
          roundDouble ((imageHeight : ℚ) / (impl.img_size.height : ℚ)))] })

/-- The image loop of `Process` (lines 214-257) from image `i` on: the scale
list is cleared at the end of every iteration and the detections of the image
are appended. -/
def processLoop (exp : ℚ → ℚ) (img_size : Size) (dim2 : Int) :
    List Mat → Nat → List (ℚ × ℚ) → List (List Detection) →
    Option (List (ℚ × ℚ) × List (List Detection))
  | [], _, img_scale_, detections => some (img_scale_, detections)
  | p :: rest, i, img_scale_, detections =>
    (imageDetections exp img_size dim2 p i img_scale_).bind (fun dets =>
      processLoop exp img_size dim2 rest (i + 1) [] (detections ++ [dets]))

/-- The scale list that iteration `k` of a run of the image loop reads: the
list at entry for the first iteration, the cleared list afterwards. -/
def scaleAt (scl : List (ℚ × ℚ)) (k : Nat) : List (ℚ × ℚ) := if k = 0 then scl else []

/-- The function `Detector::Process`: the returned status, the state after the
call and the caller's detection list. -/
def Process (exp : ℚ → ℚ) (impl : DetectorImpl) (out : ModelOutput)
    (detections : List (List Detection)) :
    Option (ErrorCode × DetectorImpl × List (List Detection)) :=
  if out.status ≠ ErrorCode.kSuccess then some (out.status, impl, detections)
  else
    (processLoop exp impl.img_size out.dim2 out.pred 0 impl.img_scale_ detections).map
      (fun r => (ErrorCode.kSuccess, { impl with img_scale_ := r.1 }, r.2))

/-! ## Images (deploy/src/image.cc) and detection crops -/

/-- The value of a 32-bit `int` expression whose exact result is `n`: the
two's complement wrap that the usual targets give on overflow. -/
def wrapInt32 (n : Int) : Int := (n + 2147483648) % 4294967296 - 2147483648

/-- Conversion of an `int` to the 64-bit unsigned `size_t`, as in the
comparison of `data.size()` with an `int`. -/
def toSizeT (n : Int) : Nat := (n % 18446744073709551616).toNat

/-- The state `ImageImpl`, the matrix `mat_` of 8-bit pixels: rows, columns,
channels and the bytes copied into it; every byte behind the copied ones is
the `0` of `cv::Scalar(0)`. -/
structure ImageImpl where
  rows : Int
  cols : Int
  channels : Int
  data : List Nat
deriving DecidableEq

/-- The function `Image::FromData` (image.cc, lines 88-105): the returned code
and the stored image.  The product `width * height * channels` is an `int`
expression compared with the `size_t` value `data.size()`.  The constructor
`cv::Mat(height, width, dtype, ...)` asserts non-negative sizes, a failure of
that assertion is the result `none`. -/
def FromData (impl : ImageImpl) (data : List Nat) (width height channels : Int) :
    Option (ErrorCode × ImageImpl) :=
  if data.length ≠ toSizeT (wrapInt32 (wrapInt32 (width * height) * channels)) then
    some (ErrorCode.kErrorImageSize, impl)
  else if channels = 1 ∨ channels = 3 then
    if 0 ≤ height ∧ 0 ≤ width then
      some (ErrorCode.kSuccess,
        { rows := height, cols := width, channels := channels, data := data })
    else none
  else some (ErrorCode.kErrorNumChann, impl)

/-- The rectangle that `GetDetImage` (detect.cc, lines 261-273) passes to
`Image::GetSub` for an image of the given width and height; `/` on `int`
truncates toward zero. -/
def GetDetImage (imageWidth imageHeight : Int) (det : Rect) : Rect :=
  let x := det.x
  let y := det.y
  let w := det.width
  let h := det.height
  let diff := w - h
  let y := y - Int.tdiv diff 2
  let h := w
  let x := if x < 0 then 0 else x
  let y := if y < 0 then 0 else y
  let w := if x + w > imageWidth then imageWidth - x else w
  let h := if y + h > imageHeight then imageHeight - y else h
  { x := x, y := y, width := w, height := h }

/-- The stable score-descending order of the indices above the score
threshold, cut to its first `top_k` entries when `top_k > 0`: the candidates
that the greedy scan of `NmsBoxes` visits, in the words of the specification. -/
def candidateOrder (scores : List ℚ) (score_threshold : ℚ) (top_k : Int) : List (ℚ × Nat) :=
  if 0 < top_k then
    (stable_sort (fun pair1 pair2 => decide (pair1.1 > pair2.1))
      (scoreIndexFrom score_threshold scores 0)).take top_k.toNat
  else
    stable_sort (fun pair1 pair2 => decide (pair1.1 > pair2.1))
      (scoreIndexFrom score_threshold scores 0)

/-- The order of a stable descending sort on pairs `(score, index)`: a higher
score first, among equal scores the lower index first. -/
def stableDescending (p q : ℚ × Nat) : Prop := p.1 > q.1 ∨ (p.1 = q.1 ∧ p.2 < q.2)

/-- In the words of the specification: `order` is the stable score-descending
order of the indices above the score threshold.  It lists exactly the pairs
`(scores[i], i)` with `scores[i] > score_threshold`, a higher score before a
lower one and, among equal scores, the lower index first. -/
def IsStableScoreOrder (scores : List ℚ) (score_threshold : ℚ) (order : List (ℚ × Nat)) : Prop :=
  (∀ (s : ℚ) (i : Nat), (s, i) ∈ order ↔ (scores[i]? = some s ∧ s > score_threshold)) ∧
    order.Pairwise stableDescending

/-! ## Lemmas on overlap -/

theorem Rect.inter_area_comm (a b : Rect) : (a.inter b).area = (b.inter a).area := by
  unfold Rect.inter
  simp only [max_comm a.x b.x, max_comm a.y b.y, min_comm (a.x + a.width) (b.x + b.width),
    min_comm (a.y + a.height) (b.y + b.height)]

theorem jaccardDistance_comm (a b : Rect) : jaccardDistance a b = jaccardDistance b a := by
  unfold jaccardDistance
  simp only [Rect.inter_area_comm a b, add_comm a.area b.area]

/-! ## Lemmas on the candidate vector -/

theorem scoreIndexFrom_mem (thr : ℚ) (scores : List ℚ) (i : Nat) (s : ℚ) (j : Nat)
    (h : (s, j) ∈ scoreIndexFrom thr scores i) :
    i ≤ j ∧ scores[j - i]? = some s ∧ s > thr := by
  induction scores generalizing i with
  | nil => simp [scoreIndexFrom] at h
  | cons a rest ih =>
    unfold scoreIndexFrom at h
    split at h
    · rcases List.mem_cons.mp h with h1 | h1
      · obtain ⟨rfl, rfl⟩ := Prod.mk.inj h1
        simpa
      · obtain ⟨h2, h3, h4⟩ := ih (i + 1) h1
        refine ⟨by omega, ?_, h4⟩
        have : j - i = (j - (i + 1)) + 1 := by omega
        rw [this]
        simpa using h3
    · obtain ⟨h2, h3, h4⟩ := ih (i + 1) h
      refine ⟨by omega, ?_, h4⟩
      have : j - i = (j - (i + 1)) + 1 := by omega
      rw [this]
      simpa using h3

theorem scoreIndexFrom_pairwise (thr : ℚ) (scores : List ℚ) (i : Nat) :
    (scoreIndexFrom thr scores i).Pairwise (fun p q => p.2 < q.2) := by
  induction scores generalizing i with
  | nil => simp [scoreIndexFrom]
  | cons a rest ih =>
    unfold scoreIndexFrom
    split
    · refine List.pairwise_cons.mpr ⟨?_, ih (i + 1)⟩
      intro q hq
      have := (scoreIndexFrom_mem thr rest (i + 1) q.1 q.2 hq).1
      simp only
      omega
    · exact ih (i + 1)

theorem scoreIndexFrom_nodup (thr : ℚ) (scores : List ℚ) (i : Nat) :
    ((scoreIndexFrom thr scores i).map Prod.snd).Nodup := by
  rw [List.Nodup, List.pairwise_map]
  exact (scoreIndexFrom_pairwise thr scores i).imp (fun h => Nat.ne_of_lt h)

theorem scoreIndexFrom_eq_nil (thr : ℚ) (scores : List ℚ) (i : Nat)
    (h : ∀ s ∈ scores, ¬ s > thr) : scoreIndexFrom thr scores i = [] := by
  induction scores generalizing i with
  | nil => rfl
  | cons a rest ih =>
    unfold scoreIndexFrom
    rw [if_neg (h a (List.mem_cons_self a rest))]
    exact ih (i + 1) (fun s hs => h s (List.mem_cons_of_mem a hs))

theorem stable_sort_perm {α : Type} (comp : α → α → Bool) (l : List α) :
    (stable_sort comp l).Perm l :=
  List.perm_insertionSort _ l

/-! ## Lemmas on the greedy scan -/

theorem nmsLoop_append (bboxes : List Rect) (thr : ℚ) (cands : List (ℚ × Nat)) (acc : List Nat) :
    ∃ l, nmsLoop bboxes thr cands acc = acc ++ l ∧ l.Sublist (cands.map Prod.snd) := by
  induction cands generalizing acc with
  | nil => exact ⟨[], by simp [nmsLoop], List.Sublist.refl _⟩
  | cons c rest ih =>
    obtain ⟨s, idx⟩ := c
    unfold nmsLoop
    split
    · obtain ⟨l, h1, h2⟩ := ih (acc ++ [idx])
      refine ⟨idx :: l, ?_, ?_⟩
      · rw [h1]; simp
      · simpa using h2.cons₂ idx
    · obtain ⟨l, h1, h2⟩ := ih acc
      exact ⟨l, h1, by simpa using h2.cons idx⟩

theorem overlapOk_symm (bboxes : List Rect) (thr : ℚ) : Symmetric (overlapOk bboxes thr) := by
  intro i j h
  unfold overlapOk at *
  rwa [jaccardDistance_comm]

theorem nmsLoop_pairwise (bboxes : List Rect) (thr : ℚ) (cands : List (ℚ × Nat)) (acc : List Nat)
    (hacc : acc.Pairwise (overlapOk bboxes thr)) :
    (nmsLoop bboxes thr cands acc).Pairwise (overlapOk bboxes thr) := by
  induction cands generalizing acc with
  | nil => simpa [nmsLoop] using hacc
  | cons c rest ih =>
    obtain ⟨s, idx⟩ := c
    unfold nmsLoop
    split
    · rename_i hk
      apply ih
      rw [List.pairwise_append]
      refine ⟨hacc, List.pairwise_singleton _ _, ?_⟩
      intro a ha b hb
      rw [List.mem_singleton] at hb
      subst hb
      unfold nmsKeep at hk
      rw [List.all_eq_true] at hk
      have h1 := of_decide_eq_true (hk a ha)
      exact overlapOk_symm bboxes thr h1
    · exact ih acc hacc

theorem sortedCandidates_sublist_perm (scores : List ℚ) (thr : ℚ) (top_k : Int) :
    ∃ l, (sortedCandidates scores thr top_k).Sublist l ∧ l.Perm (scoreIndexFrom thr scores 0) := by
  unfold sortedCandidates
  refine ⟨_, ?_, stable_sort_perm (fun pair1 pair2 => decide (pair1.1 > pair2.1)) _⟩
  simp only
  split
  · exact List.take_sublist _ _
  · exact List.Sublist.refl _

theorem sortedCandidates_mem (scores : List ℚ) (thr : ℚ) (top_k : Int) (p : ℚ × Nat)
    (h : p ∈ sortedCandidates scores thr top_k) : p ∈ scoreIndexFrom thr scores 0 := by
  obtain ⟨l, h1, h2⟩ := sortedCandidates_sublist_perm scores thr top_k
  exact h2.subset (h1.subset h)

theorem sortedCandidates_nodup (scores : List ℚ) (thr : ℚ) (top_k : Int) :
    ((sortedCandidates scores thr top_k).map Prod.snd).Nodup := by
  obtain ⟨l, h1, h2⟩ := sortedCandidates_sublist_perm scores thr top_k
  have h3 : (l.map Prod.snd).Nodup :=
    ((h2.map Prod.snd).nodup_iff).mpr (scoreIndexFrom_nodup thr scores 0)
  exact h3.sublist (h1.map Prod.snd)

theorem sortedCandidates_length_le (scores : List ℚ) (thr : ℚ) (top_k : Int) (h : 0 < top_k) :
    ((sortedCandidates scores thr top_k).length : Int) ≤ top_k := by
  unfold sortedCandidates
  simp only
  split
  · rw [List.length_take]
    omega
  · rename_i hn
    have := not_and.mp hn h
    omega

theorem scoreIndexFrom_length_le (thr : ℚ) (scores : List ℚ) (i : Nat) :
    (scoreIndexFrom thr scores i).length ≤ scores.length := by
  induction scores generalizing i with
  | nil => simp [scoreIndexFrom]
  | cons a rest ih =>
    unfold scoreIndexFrom
    split
    · simpa using ih (i + 1)
    · exact Nat.le_succ_of_le (ih (i + 1))

theorem sortedCandidates_uncapped (scores : List ℚ) (thr : ℚ) (top_k : Int)
    (h : top_k ≤ 0 ∨ (scores.length : Int) ≤ top_k) :
    sortedCandidates scores thr top_k =
      stable_sort (fun pair1 pair2 => decide (pair1.1 > pair2.1)) (scoreIndexFrom thr scores 0) := by
  unfold sortedCandidates
  simp only
  rw [if_neg]
  rintro ⟨h1, h2⟩
  have h3 := (stable_sort_perm (fun pair1 pair2 : ℚ × Nat => decide (pair1.1 > pair2.1))
    (scoreIndexFrom thr scores 0)).length_eq
  have h4 := scoreIndexFrom_length_le thr scores 0
  omega

theorem NmsBoxes_eq_some (bboxes : List Rect) (scores : List ℚ) (st nt : ℚ) (top_k : Int)
    (hlen : bboxes.length = scores.length) (hst : 0 ≤ st) (hnt : 0 ≤ nt) :
    NmsBoxes bboxes scores st nt top_k =
      some (nmsLoop bboxes nt (sortedCandidates scores st top_k) []) := by
  unfold NmsBoxes
  rw [if_pos ⟨hlen, hst, hnt⟩]

theorem NmsBoxes_some_iff (bboxes : List Rect) (scores : List ℚ) (st nt : ℚ) (top_k : Int)
    (indices : List Nat) (h : NmsBoxes bboxes scores st nt top_k = some indices) :
    (bboxes.length = scores.length ∧ 0 ≤ st ∧ 0 ≤ nt) ∧
      indices = nmsLoop bboxes nt (sortedCandidates scores st top_k) [] := by
  unfold NmsBoxes at h
  split at h
  · rename_i hc
    exact ⟨hc, (Option.some.inj h).symm⟩
  · cases h

theorem nmsLoop_sublist (bboxes : List Rect) (thr : ℚ) (cands : List (ℚ × Nat)) :
    (nmsLoop bboxes thr cands []).Sublist (cands.map Prod.snd) := by
  obtain ⟨l, h1, h2⟩ := nmsLoop_append bboxes thr cands []
  rw [h1]
  simpa using h2

theorem NmsBoxes_mem_score (bboxes : List Rect) (scores : List ℚ) (st nt : ℚ) (top_k : Int)
    (indices : List Nat) (h : NmsBoxes bboxes scores st nt top_k = some indices)
    (i : Nat) (hi : i ∈ indices) : ∃ s, scores[i]? = some s ∧ s > st := by
  obtain ⟨_, rfl⟩ := NmsBoxes_some_iff bboxes scores st nt top_k indices h
  have h1 := (nmsLoop_sublist bboxes nt (sortedCandidates scores st top_k)).subset hi
  obtain ⟨p, hp, rfl⟩ := List.mem_map.mp h1
  have h2 := scoreIndexFrom_mem st scores 0 p.1 p.2 (sortedCandidates_mem scores st top_k p hp)
  exact ⟨p.1, by simpa using h2.2.1, h2.2.2⟩

/-! ## Lemmas on truncation and clamping -/

theorem truncToInt_intCast (n : Int) : truncToInt (n : ℚ) = n := by
  unfold truncToInt
  split <;> simp

theorem truncToInt_nonneg (q : ℚ) (h : 0 ≤ q) : 0 ≤ truncToInt q := by
  unfold truncToInt
  rw [if_pos h]
  exact Int.floor_nonneg.mpr h

theorem truncToInt_le_of_nonneg (q : ℚ) (h : 0 ≤ q) : (truncToInt q : ℚ) ≤ q := by
  unfold truncToInt
  rw [if_pos h]
  exact Int.floor_le q

theorem truncToInt_nonpos_of_neg (q : ℚ) (h : q < 0) : truncToInt q ≤ 0 := by
  unfold truncToInt
  rw [if_neg (not_le.mpr h)]
  exact Int.ceil_le.mpr (by simpa using h.le)

theorem clampCoord_nonneg (v : ℚ) (limit : Int) (h : 0 ≤ limit) : 0 ≤ clampCoord v limit := by
  have hl : (0 : ℚ) ≤ (limit : ℚ) := by exact_mod_cast h
  unfold clampCoord
  simp only
  split_ifs <;> linarith

theorem clampCoord_le (v : ℚ) (limit : Int) (h : 0 ≤ limit) :
    clampCoord v limit ≤ (limit : ℚ) := by
  have hl : (0 : ℚ) ≤ (limit : ℚ) := by exact_mod_cast h
  unfold clampCoord
  simp only
  split_ifs <;> linarith

theorem DecodeBoxes_mem (exp : ℚ → ℚ) (loc anchors variances : Mat) (img_size : Size)
    (r : Rect) (h : r ∈ DecodeBoxes exp loc anchors variances img_size) :
    ∃ l a v, l ∈ loc ∧ a ∈ anchors ∧ v ∈ variances ∧
      r = cornersRect (decodeCorners exp l a v img_size) := by
  induction loc generalizing anchors variances with
  | nil => simp [DecodeBoxes] at h
  | cons l loc ih =>
    cases anchors with
    | nil => simp [DecodeBoxes] at h
    | cons a anchors =>
      cases variances with
      | nil => simp [DecodeBoxes] at h
      | cons v variances =>
        rw [DecodeBoxes] at h
        rcases List.mem_cons.mp h with h1 | h1
        · exact ⟨l, a, v, List.mem_cons_self _ _, List.mem_cons_self _ _,
            List.mem_cons_self _ _, h1⟩
        · obtain ⟨l', a', v', h2, h3, h4, h5⟩ := ih anchors variances h1
          exact ⟨l', a', v', List.mem_cons_of_mem _ h2, List.mem_cons_of_mem _ h3,
            List.mem_cons_of_mem _ h4, h5⟩

theorem truncToInt_far_le (limit : Int) (a b : ℚ) (ha : 0 ≤ a) (hal : a ≤ limit)
    (hbl : b ≤ limit) : truncToInt a + truncToInt (b - a + 1) - 1 ≤ limit := by
  have h1 := truncToInt_le_of_nonneg a ha
  by_cases hd : 0 ≤ b - a + 1
  · have h2 := truncToInt_le_of_nonneg (b - a + 1) hd
    have h3 : ((truncToInt a + truncToInt (b - a + 1) - 1 : Int) : ℚ) ≤ (limit : ℚ) := by
      push_cast
      linarith
    exact_mod_cast h3
  · have h2 := truncToInt_nonpos_of_neg (b - a + 1) (not_le.mp hd)
    have h3 : (truncToInt a : ℚ) ≤ (limit : ℚ) := le_trans h1 hal
    have h4 : truncToInt a ≤ limit := by exact_mod_cast h3
    omega

/-! ## Non-maximum suppression: main results -/

/-- C1: for boxes with matching scores and non-negative thresholds `NmsBoxes`
returns a list of indices, and any two distinct returned indices are valid
indices of boxes whose overlap `1 - jaccardDistance` is at most the
threshold. -/
theorem NmsBoxes_kept_pairs_overlap (bboxes : List Rect) (scores : List ℚ) (st nt : ℚ)
    (top_k : Int) (hlen : bboxes.length = scores.length) (hst : 0 ≤ st) (hnt : 0 ≤ nt) :
    ∃ indices, NmsBoxes bboxes scores st nt top_k = some indices ∧
      ∀ i ∈ indices, ∀ j ∈ indices, i ≠ j →
        ∃ bi bj, bboxes[i]? = some bi ∧ bboxes[j]? = some bj ∧
          1 - jaccardDistance bi bj ≤ nt := by
  refine ⟨_, NmsBoxes_eq_some bboxes scores st nt top_k hlen hst hnt, ?_⟩
  intro i hi j hj hij
  have hsome := NmsBoxes_eq_some bboxes scores st nt top_k hlen hst hnt
  obtain ⟨si, hsi, _⟩ := NmsBoxes_mem_score bboxes scores st nt top_k _ hsome i hi
  obtain ⟨sj, hsj, _⟩ := NmsBoxes_mem_score bboxes scores st nt top_k _ hsome j hj
  have hi' : i < bboxes.length := by
    rw [hlen]; exact (List.getElem?_eq_some_iff.mp hsi).1
  have hj' : j < bboxes.length := by
    rw [hlen]; exact (List.getElem?_eq_some_iff.mp hsj).1
  have hp := nmsLoop_pairwise bboxes nt (sortedCandidates scores st top_k) [] List.Pairwise.nil
  have hok := hp.forall (overlapOk_symm bboxes nt) hi hj hij
  refine ⟨bboxes[i], bboxes[j], List.getElem?_eq_getElem hi', List.getElem?_eq_getElem hj', ?_⟩
  unfold overlapOk at hok
  rwa [List.getD_eq_getElem _ _ hi', List.getD_eq_getElem _ _ hj'] at hok

theorem NmsBoxes_kept_pairs_overlap_witness :
    ∃ indices, NmsBoxes [⟨0, 0, 10, 10⟩, ⟨1, 1, 10, 10⟩, ⟨20, 20, 5, 5⟩] [8 / 10, 9 / 10, 1 / 2]
        (1 / 100) (45 / 100) 200 = some indices ∧
      ∀ i ∈ indices, ∀ j ∈ indices, i ≠ j →
        ∃ bi bj, [(⟨0, 0, 10, 10⟩ : Rect), ⟨1, 1, 10, 10⟩, ⟨20, 20, 5, 5⟩][i]? = some bi ∧
          [(⟨0, 0, 10, 10⟩ : Rect), ⟨1, 1, 10, 10⟩, ⟨20, 20, 5, 5⟩][j]? = some bj ∧
          1 - jaccardDistance bi bj ≤ 45 / 100 :=
  NmsBoxes_kept_pairs_overlap [⟨0, 0, 10, 10⟩, ⟨1, 1, 10, 10⟩, ⟨20, 20, 5, 5⟩]
    [8 / 10, 9 / 10, 1 / 2] (1 / 100) (45 / 100) 200 (by decide) (by norm_num) (by norm_num)

/-- C2: every index returned by `NmsBoxes` is a valid index into `scores` whose
score exceeds the threshold, and no index is returned twice; when the three
asserted preconditions hold and no score exceeds the threshold, the call
succeeds with the empty list. -/
theorem NmsBoxes_indices_valid (bboxes : List Rect) (scores : List ℚ) (st nt : ℚ)
    (top_k : Int) :
    (∀ indices, NmsBoxes bboxes scores st nt top_k = some indices →
      (∀ i ∈ indices, ∃ h : i < scores.length, scores[i] > st) ∧ indices.Nodup) ∧
    (bboxes.length = scores.length → 0 ≤ st → 0 ≤ nt → (∀ s ∈ scores, ¬ s > st) →
      NmsBoxes bboxes scores st nt top_k = some []) := by
  constructor
  · intro indices h
    constructor
    · intro i hi
      obtain ⟨s, hs, hgt⟩ := NmsBoxes_mem_score bboxes scores st nt top_k indices h i hi
      obtain ⟨hlt, heq⟩ := List.getElem?_eq_some_iff.mp hs
      exact ⟨hlt, by rw [heq]; exact hgt⟩
    · obtain ⟨_, rfl⟩ := NmsBoxes_some_iff bboxes scores st nt top_k indices h
      exact (sortedCandidates_nodup scores st top_k).sublist
        (nmsLoop_sublist bboxes nt (sortedCandidates scores st top_k))
  · intro hlen hst hnt hnone
    rw [NmsBoxes_eq_some bboxes scores st nt top_k hlen hst hnt]
    have h1 : sortedCandidates scores st top_k = [] := by
      have h2 := scoreIndexFrom_eq_nil st scores 0 hnone
      apply List.eq_nil_of_subset_nil
      intro p hp
      rw [← h2]
      exact sortedCandidates_mem scores st top_k p hp
    rw [h1]
    rfl

theorem NmsBoxes_indices_valid_witness :
    (∀ i ∈ [1, 2], ∃ h : i < [(8 : ℚ) / 10, 9 / 10, 1 / 2].length,
        [(8 : ℚ) / 10, 9 / 10, 1 / 2][i] > 1 / 100) ∧ [1, 2].Nodup ∧
      NmsBoxes [⟨0, 0, 10, 10⟩, ⟨1, 1, 10, 10⟩] [1 / 200, 1 / 100] (1 / 100) (45 / 100) 200
        = some [] :=
  ⟨((NmsBoxes_indices_valid [⟨0, 0, 10, 10⟩, ⟨1, 1, 10, 10⟩, ⟨20, 20, 5, 5⟩]
      [8 / 10, 9 / 10, 1 / 2] (1 / 100) (45 / 100) 200).1 [1, 2] (by decide!)).1,
   ((NmsBoxes_indices_valid [⟨0, 0, 10, 10⟩, ⟨1, 1, 10, 10⟩, ⟨20, 20, 5, 5⟩]
      [8 / 10, 9 / 10, 1 / 2] (1 / 100) (45 / 100) 200).1 [1, 2] (by decide!)).2,
   (NmsBoxes_indices_valid [⟨0, 0, 10, 10⟩, ⟨1, 1, 10, 10⟩] [1 / 200, 1 / 100]
      (1 / 100) (45 / 100) 200).2 (by decide) (by norm_num) (by norm_num) (by decide!)⟩

/-- C3: with `top_k > 0` the number of returned indices is at most `top_k`;
with `top_k <= 0` every candidate above the score threshold is scanned and the
result is the one of any cap `k` that no input of this size can reach. -/
theorem NmsBoxes_top_k (bboxes : List Rect) (scores : List ℚ) (st nt : ℚ) (top_k : Int) :
    (0 < top_k → ∀ indices, NmsBoxes bboxes scores st nt top_k = some indices →
      (indices.length : Int) ≤ top_k) ∧
    (top_k ≤ 0 →
      (sortedCandidates scores st top_k).Perm (scoreIndexFrom st scores 0) ∧
      ∀ k : Int, (scores.length : Int) ≤ k →
        NmsBoxes bboxes scores st nt top_k = NmsBoxes bboxes scores st nt k) := by
  constructor
  · intro hk indices h
    obtain ⟨_, rfl⟩ := NmsBoxes_some_iff bboxes scores st nt top_k indices h
    have h1 := (nmsLoop_sublist bboxes nt (sortedCandidates scores st top_k)).length_le
    have h2 := sortedCandidates_length_le scores st top_k hk
    rw [List.length_map] at h1
    omega
  · intro hk
    constructor
    · rw [sortedCandidates_uncapped scores st top_k (Or.inl hk)]
      exact stable_sort_perm _ _
    · intro k hlen
      unfold NmsBoxes
      rw [sortedCandidates_uncapped scores st top_k (Or.inl hk),
        sortedCandidates_uncapped scores st k (Or.inr hlen)]

theorem NmsBoxes_top_k_witness :
    ((([1] : List Nat).length : Int) ≤ 1) ∧
      NmsBoxes [⟨0, 0, 10, 10⟩, ⟨20, 20, 5, 5⟩] [8 / 10, 9 / 10] (1 / 100) (45 / 100) (-1)
        = NmsBoxes [⟨0, 0, 10, 10⟩, ⟨20, 20, 5, 5⟩] [8 / 10, 9 / 10] (1 / 100) (45 / 100) 2 :=
  ⟨(NmsBoxes_top_k [⟨0, 0, 10, 10⟩, ⟨20, 20, 5, 5⟩] [8 / 10, 9 / 10] (1 / 100) (45 / 100) 1).1
      (by decide) [1] (by decide!),
   ((NmsBoxes_top_k [⟨0, 0, 10, 10⟩, ⟨20, 20, 5, 5⟩] [8 / 10, 9 / 10] (1 / 100) (45 / 100)
      (-1)).2 (by decide)).2 2 (by decide)⟩

theorem decodeCorners_bounds (exp : ℚ → ℚ) (l a v : List ℚ) (img_size : Size)
    (hw : 0 ≤ img_size.width) (hh : 0 ≤ img_size.height) :
    (0 ≤ (decodeCorners exp l a v img_size).x0 ∧
      (decodeCorners exp l a v img_size).x0 ≤ (img_size.width : ℚ)) ∧
    (0 ≤ (decodeCorners exp l a v img_size).x1 ∧
      (decodeCorners exp l a v img_size).x1 ≤ (img_size.width : ℚ)) ∧
    (0 ≤ (decodeCorners exp l a v img_size).y0 ∧
      (decodeCorners exp l a v img_size).y0 ≤ (img_size.height : ℚ)) ∧
    (0 ≤ (decodeCorners exp l a v img_size).y1 ∧
      (decodeCorners exp l a v img_size).y1 ≤ (img_size.height : ℚ)) := by
  unfold decodeCorners
  exact ⟨⟨clampCoord_nonneg _ _ hw, clampCoord_le _ _ hw⟩,
    ⟨clampCoord_nonneg _ _ hw, clampCoord_le _ _ hw⟩,
    ⟨clampCoord_nonneg _ _ hh, clampCoord_le _ _ hh⟩,
    ⟨clampCoord_nonneg _ _ hh, clampCoord_le _ _ hh⟩⟩

/-- C4: for a network size with `width >= 0` and `height >= 0` the clamped
corners of every proposal row lie in `[0, width]` and `[0, height]`, and every
rectangle returned by `DecodeBoxes` has `0 <= x <= width`, `0 <= y <= height`,
`x + w - 1 <= width` and `y + h - 1 <= height`. -/
theorem DecodeBoxes_within_bounds (exp : ℚ → ℚ) (loc anchors variances : Mat) (img_size : Size)
    (hw : 0 ≤ img_size.width) (hh : 0 ≤ img_size.height) :
    (∀ l a v : List ℚ,
      (0 ≤ (decodeCorners exp l a v img_size).x0 ∧
        (decodeCorners exp l a v img_size).x0 ≤ (img_size.width : ℚ)) ∧
      (0 ≤ (decodeCorners exp l a v img_size).x1 ∧
        (decodeCorners exp l a v img_size).x1 ≤ (img_size.width : ℚ)) ∧
      (0 ≤ (decodeCorners exp l a v img_size).y0 ∧
        (decodeCorners exp l a v img_size).y0 ≤ (img_size.height : ℚ)) ∧
      (0 ≤ (decodeCorners exp l a v img_size).y1 ∧
        (decodeCorners exp l a v img_size).y1 ≤ (img_size.height : ℚ))) ∧
    (∀ r ∈ DecodeBoxes exp loc anchors variances img_size,
      (0 ≤ r.x ∧ r.x ≤ img_size.width) ∧ (0 ≤ r.y ∧ r.y ≤ img_size.height) ∧
      r.x + r.width - 1 ≤ img_size.width ∧ r.y + r.height - 1 ≤ img_size.height) := by
  refine ⟨fun l a v => decodeCorners_bounds exp l a v img_size hw hh, ?_⟩
  intro r hr
  obtain ⟨l, a, v, _, _, _, rfl⟩ := DecodeBoxes_mem exp loc anchors variances img_size r hr
  obtain ⟨⟨hx0, hx0'⟩, ⟨_, hx1'⟩, ⟨hy0, hy0'⟩, ⟨_, hy1'⟩⟩ :=
    decodeCorners_bounds exp l a v img_size hw hh
  have hx : (truncToInt (decodeCorners exp l a v img_size).x0 : ℚ) ≤ (img_size.width : ℚ) :=
    le_trans (truncToInt_le_of_nonneg _ hx0) hx0'
  have hy : (truncToInt (decodeCorners exp l a v img_size).y0 : ℚ) ≤ (img_size.height : ℚ) :=
    le_trans (truncToInt_le_of_nonneg _ hy0) hy0'
  refine ⟨⟨truncToInt_nonneg _ hx0, by exact_mod_cast hx⟩,
    ⟨truncToInt_nonneg _ hy0, by exact_mod_cast hy⟩, ?_, ?_⟩
  · exact truncToInt_far_le img_size.width _ _ hx0 hx0' hx1'
  · exact truncToInt_far_le img_size.height _ _ hy0 hy0' hy1'

theorem DecodeBoxes_within_bounds_witness :
    (∀ l a v : List ℚ,
      (0 ≤ (decodeCorners expTaylor l a v ⟨300, 200⟩).x0 ∧
        (decodeCorners expTaylor l a v ⟨300, 200⟩).x0 ≤ ((300 : Int) : ℚ)) ∧
      (0 ≤ (decodeCorners expTaylor l a v ⟨300, 200⟩).x1 ∧
        (decodeCorners expTaylor l a v ⟨300, 200⟩).x1 ≤ ((300 : Int) : ℚ)) ∧
      (0 ≤ (decodeCorners expTaylor l a v ⟨300, 200⟩).y0 ∧
        (decodeCorners expTaylor l a v ⟨300, 200⟩).y0 ≤ ((200 : Int) : ℚ)) ∧
      (0 ≤ (decodeCorners expTaylor l a v ⟨300, 200⟩).y1 ∧
        (decodeCorners expTaylor l a v ⟨300, 200⟩).y1 ≤ ((200 : Int) : ℚ))) ∧
    (∀ r ∈ DecodeBoxes expTaylor [[1 / 10, -2, 1, 3]] [[1 / 4, 1 / 4, 3 / 4, 1 / 2]]
        [[1 / 10, 1 / 10, 1 / 5, 1 / 5]] ⟨300, 200⟩,
      (0 ≤ r.x ∧ r.x ≤ 300) ∧ (0 ≤ r.y ∧ r.y ≤ 200) ∧
      r.x + r.width - 1 ≤ 300 ∧ r.y + r.height - 1 ≤ 200) :=
  DecodeBoxes_within_bounds expTaylor [[1 / 10, -2, 1, 3]] [[1 / 4, 1 / 4, 3 / 4, 1 / 2]]
    [[1 / 10, 1 / 10, 1 / 5, 1 / 5]] ⟨300, 200⟩ (by decide) (by decide)

/-- C10: for the single proposal with anchor `[0, 0, 1, 1]`, variances
`[1, 1, 1, 1]` and `loc = [0, 0, 0, 0]`, with `exp 0 = 1` and a network size
`width, height >= 0`, `DecodeBoxes` returns exactly the rectangle
`(0, 0, width + 1, height + 1)`. -/
theorem DecodeBoxes_full_frame (exp : ℚ → ℚ) (hexp : exp 0 = 1) (width height : Int)
    (hw : 0 ≤ width) (hh : 0 ≤ height) :
    DecodeBoxes exp [[0, 0, 0, 0]] [[0, 0, 1, 1]] [[1, 1, 1, 1]] ⟨width, height⟩
      = [⟨0, 0, width + 1, height + 1⟩] := by
  have hwq : (0 : ℚ) ≤ (width : ℚ) := by exact_mod_cast hw
  have hhq : (0 : ℚ) ≤ (height : ℚ) := by exact_mod_cast hh
  have c0 : ∀ n : Int, 0 ≤ n → clampCoord 0 n = 0 := by
    intro n hn
    have hnq : (0 : ℚ) ≤ (n : ℚ) := by exact_mod_cast hn
    unfold clampCoord
    simp only [lt_self_iff_false, if_false]
    split_ifs with h
    · exact le_antisymm h hnq
    · rfl
  have c1 : ∀ n : Int, 0 ≤ n → clampCoord (n : ℚ) n = (n : ℚ) := by
    intro n hn
    have hnq : (0 : ℚ) ≤ (n : ℚ) := by exact_mod_cast hn
    unfold clampCoord
    simp only [if_neg (not_lt.mpr hnq), ge_iff_le, le_refl, if_true]
  have e0 : ∀ n : Int, truncToInt ((n : ℚ) - 0 + 1) = n + 1 := by
    intro n
    have : ((n : ℚ) - 0 + 1) = ((n + 1 : Int) : ℚ) := by push_cast; ring
    rw [this, truncToInt_intCast]
  have t0 : truncToInt 0 = 0 := by simpa using truncToInt_intCast 0
  simp only [DecodeBoxes, decodeCorners, cornersRect, List.getD_cons_zero, List.getD_cons_succ,
    mul_one, mul_zero, zero_mul, hexp, sub_zero, add_zero, zero_add]
  norm_num
  rw [c0 width hw, c0 height hh, c1 width hw, c1 height hh, e0, e0, t0]
  exact ⟨rfl, rfl, rfl, rfl⟩

theorem DecodeBoxes_full_frame_witness :
    DecodeBoxes expTaylor [[0, 0, 0, 0]] [[0, 0, 1, 1]] [[1, 1, 1, 1]] ⟨300, 200⟩
      = [⟨0, 0, 300 + 1, 200 + 1⟩] :=
  DecodeBoxes_full_frame expTaylor (by decide!) 300 200 (by decide) (by decide)

/-! ## Lemmas on the class scan -/

theorem MaxAt_step (pre : List ℚ) (best : ℚ × Nat) (v : ℚ) (h : MaxAt pre best) :
    MaxAt (pre ++ [v]) (if v > best.1 then (v, pre.length) else best) := by
  obtain ⟨h1, h2, h3⟩ := h
  have hb : best.2 < pre.length := (List.getElem?_eq_some_iff.mp h1).1
  have key : ∀ (k : Nat) (u : ℚ), (pre ++ [v])[k]? = some u → pre[k]? = some u ∨ (k = pre.length ∧ u = v) := by
    intro k u hk
    by_cases hlt : k < pre.length
    · left
      rwa [List.getElem?_append_left hlt] at hk
    · right
      have hk2 := (List.getElem?_eq_some_iff.mp hk).1
      simp only [List.length_append, List.length_singleton] at hk2
      have hke : k = pre.length := by omega
      subst hke
      simp at hk
      exact ⟨rfl, hk.symm⟩
  split
  · rename_i hgt
    refine ⟨by simp, ?_, ?_⟩
    · intro k u hk
      rcases key k u hk with h4 | ⟨_, rfl⟩
      · exact le_trans (h2 k u h4) hgt.le
      · exact le_refl _
    · intro k u hlt hk
      rcases key k u hk with h4 | ⟨h5, _⟩
      · exact lt_of_le_of_lt (h2 k u h4) hgt
      · simp only at hlt
        omega
  · rename_i hgt
    refine ⟨by rw [List.getElem?_append_left hb]; exact h1, ?_, ?_⟩
    · intro k u hk
      rcases key k u hk with h4 | ⟨_, rfl⟩
      · exact h2 k u h4
      · exact not_lt.mp hgt
    · intro k u hlt hk
      rcases key k u hk with h4 | ⟨h5, _⟩
      · exact h3 k u hlt h4
      · omega

theorem maxLocFrom_MaxAt (vs pre : List ℚ) (best : ℚ × Nat) (h : MaxAt pre best) :
    MaxAt (pre ++ vs) (maxLocFrom vs pre.length best) := by
  induction vs generalizing pre best with
  | nil => simpa [maxLocFrom] using h
  | cons v vs ih =>
    have h1 := ih (pre ++ [v]) _ (MaxAt_step pre best v h)
    simpa [maxLocFrom] using h1

theorem minMaxLoc_spec (row : List ℚ) (hne : row ≠ []) :
    ∃ m, minMaxLoc row = some m ∧ MaxAt row m := by
  cases row with
  | nil => exact absurd rfl hne
  | cons v vs =>
    refine ⟨_, rfl, ?_⟩
    have h0 : MaxAt [v] (v, 0) := by
      refine ⟨by simp, ?_, ?_⟩
      · intro k u hk
        have hk2 := (List.getElem?_eq_some_iff.mp hk).1
        simp only [List.length_singleton] at hk2
        have hk0 : k = 0 := by omega
        subst hk0
        simp at hk
        exact hk.symm.le
      · intro k u hlt _
        simp only at hlt
        omega
    simpa using maxLocFrom_MaxAt vs [v] (v, 0) h0

theorem selectClass_spec (confRow : List ℚ) (C : Nat) (hC : 2 ≤ C) (hlen : confRow.length = C) :
    ∃ score cls, selectClass confRow = some (score, cls) ∧ 1 ≤ cls ∧ cls < C ∧
      confRow[cls]? = some score ∧
      (∀ (k : Nat) (v : ℚ), 1 ≤ k → confRow[k]? = some v → v ≤ score) ∧
      (∀ (k : Nat) (v : ℚ), 1 ≤ k → k < cls → confRow[k]? = some v → v < score) := by
  have hne : confRow.drop 1 ≠ [] := by
    intro h
    have := congrArg List.length h
    simp only [List.length_drop, List.length_nil] at this
    omega
  obtain ⟨m, hm, h1, h2, h3⟩ := minMaxLoc_spec (confRow.drop 1) hne
  have hdrop : ∀ k : Nat, (confRow.drop 1)[k]? = confRow[k + 1]? := by
    intro k
    rw [List.getElem?_drop, Nat.add_comm]
  refine ⟨m.1, m.2 + 1, by unfold selectClass; rw [hm]; rfl, by omega, ?_, ?_, ?_, ?_⟩
  · have := (List.getElem?_eq_some_iff.mp h1).1
    simp only [List.length_drop] at this
    omega
  · rw [← hdrop]; exact h1
  · intro k v hk hv
    obtain ⟨k', rfl⟩ : ∃ k', k = k' + 1 := ⟨k - 1, by omega⟩
    exact h2 k' v (by rw [hdrop]; exact hv)
  · intro k v hk hlt hv
    obtain ⟨k', rfl⟩ : ∃ k', k = k' + 1 := ⟨k - 1, by omega⟩
    exact h3 k' v (by omega) (by rw [hdrop]; exact hv)

theorem mapM_option_cons {α β : Type} (f : α → Option β) (a : α) (l : List α) :
    (a :: l).mapM f = (f a).bind (fun b => (l.mapM f).bind (fun bs => some (b :: bs))) := by
  rw [List.mapM_cons]
  rfl

theorem mapM_option_forall₂ {α β : Type} (f : α → Option β) (l : List α) (bs : List β)
    (h : l.mapM f = some bs) : List.Forall₂ (fun a b => f a = some b) l bs := by
  induction l generalizing bs with
  | nil =>
    rw [List.mapM_nil] at h
    cases h
    exact List.Forall₂.nil
  | cons a l ih =>
    rw [mapM_option_cons] at h
    obtain ⟨b, hb, h1⟩ := Option.bind_eq_some.mp h
    obtain ⟨bs', hbs, h2⟩ := Option.bind_eq_some.mp h1
    cases h2
    exact List.Forall₂.cons hb (ih bs' hbs)

theorem mapM_option_total {α β : Type} (f : α → Option β) (l : List α)
    (h : ∀ a ∈ l, ∃ b, f a = some b) : ∃ bs, l.mapM f = some bs := by
  induction l with
  | nil => exact ⟨[], rfl⟩
  | cons a l ih =>
    obtain ⟨b, hb⟩ := h a (List.mem_cons_self a l)
    obtain ⟨bs, hbs⟩ := ih (fun x hx => h x (List.mem_cons_of_mem a hx))
    refine ⟨b :: bs, ?_⟩
    rw [mapM_option_cons, hb, hbs]
    rfl

theorem forall₂_getElem? {α β : Type} (R : α → β → Prop) (l : List α) (bs : List β)
    (h : List.Forall₂ R l bs) (k : Nat) (a : α) (ha : l[k]? = some a) :
    ∃ b, bs[k]? = some b ∧ R a b := by
  obtain ⟨hk, rfl⟩ := List.getElem?_eq_some_iff.mp ha
  have hk' : k < bs.length := h.length_eq ▸ hk
  exact ⟨bs[k], List.getElem?_eq_getElem hk', h.get hk hk'⟩

theorem forall₂_mem_right {α β : Type} (R : α → β → Prop) (l : List α) (bs : List β)
    (h : List.Forall₂ R l bs) (b : β) (hb : b ∈ bs) : ∃ a ∈ l, R a b := by
  induction h with
  | nil => cases hb
  | cons hab _ ih =>
    rcases List.mem_cons.mp hb with h1 | h1
    · subst h1
      exact ⟨_, List.mem_cons_self _ _, hab⟩
    · obtain ⟨a, ha, hr⟩ := ih h1
      exact ⟨a, List.mem_cons_of_mem _ ha, hr⟩

/-! ## Class selection: main result -/

/-- C5: for a confidence matrix whose rows have `C >= 2` columns the class loop
of `Process` returns, for every row `r`, a score that is the value of the row
at column `class_index[r]`, with `1 <= class_index[r] < C`, no column `k >= 1`
of the row exceeds the score and every column `1 <= k < class_index[r]` is
strictly below it. -/
theorem classSelect_argmax (conf : Mat) (C : Nat) (hC : 2 ≤ C)
    (hrows : ∀ row ∈ conf, row.length = C) :
    ∃ sel, classSelect conf = some sel ∧ sel.length = conf.length ∧
      ∀ (r : Nat) (row : List ℚ), conf[r]? = some row →
        ∃ score cls, sel[r]? = some (score, cls) ∧ (sel.map Prod.fst)[r]? = some score ∧
          (sel.map Prod.snd)[r]? = some cls ∧ 1 ≤ cls ∧ cls < C ∧ cls ≠ 0 ∧
          row[cls]? = some score ∧
          (∀ (k : Nat) (v : ℚ), 1 ≤ k → row[k]? = some v → v ≤ score) ∧
          (∀ (k : Nat) (v : ℚ), 1 ≤ k → k < cls → row[k]? = some v → v < score) := by
  have htot : ∀ row ∈ conf, ∃ b, selectClass row = some b := by
    intro row hrow
    obtain ⟨score, cls, h, _⟩ := selectClass_spec row C hC (hrows row hrow)
    exact ⟨_, h⟩
  obtain ⟨sel, hsel⟩ := mapM_option_total selectClass conf htot
  have hf := mapM_option_forall₂ selectClass conf sel hsel
  refine ⟨sel, hsel, hf.length_eq.symm, ?_⟩
  intro r row hrow
  obtain ⟨b, hb, hsc⟩ := forall₂_getElem? _ conf sel hf r row hrow
  obtain ⟨score, cls, h1, h2, h3, h4, h5, h6⟩ :=
    selectClass_spec row C hC (hrows row (List.getElem?_mem hrow))
  rw [h1] at hsc
  cases hsc
  refine ⟨score, cls, hb, ?_, ?_, h2, h3, by omega, h4, h5, h6⟩
  · rw [List.getElem?_map, hb]; rfl
  · rw [List.getElem?_map, hb]; rfl

theorem classSelect_argmax_witness :
    ∃ sel, classSelect [[9 / 10, 1 / 5, 7 / 10, 7 / 10], [0, 1 / 2, 1 / 4, 1 / 8]] = some sel ∧
      sel.length = [[(9 : ℚ) / 10, 1 / 5, 7 / 10, 7 / 10], [0, 1 / 2, 1 / 4, 1 / 8]].length ∧
      ∀ (r : Nat) (row : List ℚ),
        [[(9 : ℚ) / 10, 1 / 5, 7 / 10, 7 / 10], [0, 1 / 2, 1 / 4, 1 / 8]][r]? = some row →
        ∃ score cls, sel[r]? = some (score, cls) ∧ (sel.map Prod.fst)[r]? = some score ∧
          (sel.map Prod.snd)[r]? = some cls ∧ 1 ≤ cls ∧ cls < 4 ∧ cls ≠ 0 ∧
          row[cls]? = some score ∧
          (∀ (k : Nat) (v : ℚ), 1 ≤ k → row[k]? = some v → v ≤ score) ∧
          (∀ (k : Nat) (v : ℚ), 1 ≤ k → k < cls → row[k]? = some v → v < score) :=
  classSelect_argmax [[9 / 10, 1 / 5, 7 / 10, 7 / 10], [0, 1 / 2, 1 / 4, 1 / 8]] 4 (by decide)
    (by
      intro row hrow
      simp only [List.mem_cons, List.mem_singleton, List.not_mem_nil, or_false] at hrow
      rcases hrow with rfl | rfl <;> rfl)

/-! ## Lemmas on the batch loop -/

theorem std_sort_perm {α : Type} (comp : α → α → Bool) (l : List α) :
    (std_sort comp l).Perm l :=
  List.perm_insertionSort _ l

theorem std_sort_confidence_sorted (dets : List Detection) :
    (std_sort (fun left right => decide (left.confidence > right.confidence)) dets).Pairwise
      (fun d e => d.confidence ≥ e.confidence) := by
  unfold std_sort
  haveI : IsTotal Detection
      (fun a b => (fun left right : Detection =>
        decide (left.confidence > right.confidence)) b a = false) :=
    ⟨fun a b => by
      simp only [decide_eq_false_iff_not, not_lt]
      exact le_total _ _⟩
  haveI : IsTrans Detection
      (fun a b => (fun left right : Detection =>
        decide (left.confidence > right.confidence)) b a = false) :=
    ⟨fun a b c => by
      simp only [decide_eq_false_iff_not, not_lt]
      exact fun h1 h2 => le_trans h2 h1⟩
  have h := List.sorted_insertionSort
    (fun a b => (fun left right : Detection =>
        decide (left.confidence > right.confidence)) b a = false) dets
  refine List.Pairwise.imp ?_ h
  intro a b hab
  simpa using hab

theorem buildDetections_spec (boxes : List Rect) (sel : List (ℚ × Nat)) (scl : List (ℚ × ℚ))
    (i : Nat) (indices : List Nat) (raw : List Detection)
    (h : buildDetections boxes sel scl i indices = some raw) :
    List.Forall₂ (fun idx d => ∃ scale box sc, scl[i]? = some scale ∧ boxes[idx]? = some box ∧
      sel[idx]? = some sc ∧ d = makeDetection box scale sc.1 sc.2) indices raw := by
  refine (mapM_option_forall₂ _ indices raw h).imp ?_
  intro idx d hd
  obtain ⟨scale, hscale, h1⟩ := Option.bind_eq_some.mp hd
  obtain ⟨box, hbox, h2⟩ := Option.bind_eq_some.mp h1
  obtain ⟨sc, hsc, h3⟩ := Option.map_eq_some'.mp h2
  exact ⟨scale, box, sc, hscale, hbox, hsc, h3.symm⟩

theorem imageDetections_spec (exp : ℚ → ℚ) (img_size : Size) (dim2 : Int) (p : Mat) (i : Nat)
    (scl : List (ℚ × ℚ)) (dets : List Detection)
    (h : imageDetections exp img_size dim2 p i scl = some dets) :
    ∃ sel indices raw, classSelect (imageConf dim2 p) = some sel ∧
      NmsBoxes (imageBoxes exp img_size dim2 p) (sel.map Prod.fst) (1 / 100) (45 / 100) 200
        = some indices ∧
      buildDetections (imageBoxes exp img_size dim2 p) sel scl i indices = some raw ∧
      dets = std_sort (fun left right => decide (left.confidence > right.confidence)) raw := by
  unfold imageDetections at h
  split at h
  · obtain ⟨sel, hsel, h1⟩ := Option.bind_eq_some.mp h
    obtain ⟨indices, hind, h2⟩ := Option.bind_eq_some.mp h1
    obtain ⟨raw, hraw, h3⟩ := Option.map_eq_some'.mp h2
    exact ⟨sel, indices, raw, hsel, hind, hraw, h3.symm⟩
  · cases h

theorem processLoop_spec (exp : ℚ → ℚ) (img_size : Size) (dim2 : Int) (pred : List Mat) (i : Nat)
    (scl : List (ℚ × ℚ)) (dets0 : List (List Detection)) (scl' : List (ℚ × ℚ))
    (result : List (List Detection))
    (h : processLoop exp img_size dim2 pred i scl dets0 = some (scl', result)) :
    ∃ new, result = dets0 ++ new ∧ new.length = pred.length ∧
      (pred = [] → scl' = scl) ∧ (pred ≠ [] → scl' = []) ∧
      ∀ (k : Nat) (p : Mat), pred[k]? = some p →
        ∃ dets, new[k]? = some dets ∧
          imageDetections exp img_size dim2 p (i + k) (scaleAt scl k) = some dets := by
  induction pred generalizing i scl dets0 with
  | nil =>
    rw [processLoop] at h
    cases h
    exact ⟨[], by simp, rfl, fun _ => rfl, fun hne => absurd rfl hne, by simp⟩
  | cons p rest ih =>
    rw [processLoop] at h
    obtain ⟨dets, hdets, h1⟩ := Option.bind_eq_some.mp h
    obtain ⟨new', hres, hlen, hnil, hcons, hk⟩ := ih (i + 1) [] (dets0 ++ [dets]) h1
    refine ⟨dets :: new', by rw [hres]; simp, by simp [hlen], by simp, ?_, ?_⟩
    · intro _
      by_cases hr : rest = []
      · exact hnil hr
      · exact hcons hr
    · intro k q hq
      cases k with
      | zero =>
        simp only [List.getElem?_cons_zero, Option.some.injEq] at hq
        subst hq
        exact ⟨dets, by simp, by simpa [scaleAt] using hdets⟩
      | succ k =>
        simp only [List.getElem?_cons_succ] at hq
        obtain ⟨d, hd1, hd2⟩ := hk k q hq
        refine ⟨d, by simpa using hd1, ?_⟩
        have e1 : scaleAt ([] : List (ℚ × ℚ)) k = scaleAt scl (k + 1) := by
          unfold scaleAt
          split <;> simp
        have e2 : i + 1 + k = i + (k + 1) := by omega
        rw [← e1, ← e2]
        exact hd2

theorem Process_spec (exp : ℚ → ℚ) (impl : DetectorImpl) (out : ModelOutput)
    (detections : List (List Detection)) (st : ErrorCode) (impl' : DetectorImpl)
    (result : List (List Detection))
    (h : Process exp impl out detections = some (st, impl', result))
    (hs : out.status = ErrorCode.kSuccess) :
    st = ErrorCode.kSuccess ∧ impl'.img_size = impl.img_size ∧
      processLoop exp impl.img_size out.dim2 out.pred 0 impl.img_scale_ detections
        = some (impl'.img_scale_, result) := by
  unfold Process at h
  rw [if_neg (by simp [hs])] at h
  obtain ⟨r, hr, h1⟩ := Option.map_eq_some'.mp h
  cases h1
  exact ⟨rfl, rfl, hr⟩

/-! ## The batch loop: main results -/

/-- C6: every detection list that a run of `Process` appends is ordered by
confidence, non-increasing from one detection to the next; a successful run
appends one list per image of the batch. -/
theorem Process_detections_sorted (exp : ℚ → ℚ) (impl : DetectorImpl) (out : ModelOutput)
    (detections : List (List Detection)) (st : ErrorCode) (impl' : DetectorImpl)
    (result : List (List Detection))
    (h : Process exp impl out detections = some (st, impl', result)) :
    ∃ new, result = detections ++ new ∧
      (st = ErrorCode.kSuccess → new.length = out.pred.length) ∧
      ∀ dets ∈ new, List.Chain' (fun d e => d.confidence ≥ e.confidence) dets := by
  by_cases hs : out.status = ErrorCode.kSuccess
  · obtain ⟨_, _, hloop⟩ := Process_spec exp impl out detections st impl' result h hs
    obtain ⟨new, hres, hlen, _, _, hk⟩ :=
      processLoop_spec exp impl.img_size out.dim2 out.pred 0 impl.img_scale_ detections _ _ hloop
    refine ⟨new, hres, fun _ => hlen, ?_⟩
    intro dets hdets
    obtain ⟨k, hk1⟩ := List.mem_iff_getElem?.mp hdets
    have hklt : k < out.pred.length := hlen ▸ (List.getElem?_eq_some_iff.mp hk1).1
    obtain ⟨d, hd1, hd2⟩ := hk k out.pred[k] (List.getElem?_eq_getElem hklt)
    rw [hk1] at hd1
    cases hd1
    obtain ⟨sel, indices, raw, _, _, _, rfl⟩ := imageDetections_spec _ _ _ _ _ _ _ hd2
    exact (std_sort_confidence_sorted raw).chain'
  · unfold Process at h
    rw [if_pos hs] at h
    cases h
    exact ⟨[], by simp, fun h1 => absurd h1 hs, by simp⟩

theorem Process_detections_sorted_witness :
    ∃ new, [[(⟨⟨0, 0, 602, 602⟩, 9 / 10, 1⟩ : Detection), ⟨⟨0, 0, 302, 302⟩, 1 / 2, 2⟩]]
        = [] ++ new ∧
      (ErrorCode.kSuccess = ErrorCode.kSuccess →
        new.length = [[[(0 : ℚ), 0, 0, 0, 1 / 10, 1 / 5, 1 / 2, 0, 0, 1 / 2, 1 / 2, 1, 1, 1, 1],
          [0, 0, 0, 0, 1 / 10, 9 / 10, 1 / 2, 0, 0, 1, 1, 1, 1, 1, 1]]].length) ∧
      ∀ dets ∈ new, List.Chain' (fun d e => d.confidence ≥ e.confidence) dets :=
  Process_detections_sorted expTaylor ⟨⟨300, 300⟩, [(2, 2)]⟩
    ⟨ErrorCode.kSuccess, 15,
      [[[0, 0, 0, 0, 1 / 10, 1 / 5, 1 / 2, 0, 0, 1 / 2, 1 / 2, 1, 1, 1, 1],
        [0, 0, 0, 0, 1 / 10, 9 / 10, 1 / 2, 0, 0, 1, 1, 1, 1, 1, 1]]]⟩
    [] ErrorCode.kSuccess ⟨⟨300, 300⟩, []⟩
    [[⟨⟨0, 0, 602, 602⟩, 9 / 10, 1⟩, ⟨⟨0, 0, 302, 302⟩, 1 / 2, 2⟩]] (by decide!)

/-- C7 fails on the code: `AddImage` records one scale pair per image, but
`Process` clears the list at the end of the first iteration, so for the second
image of a batch of two the lookup `img_scale_[1]` is out of range and the run
has no result; the same matrix as image 1 of a list that still holds both
pairs would be rescaled with the second pair. -/
theorem Process_second_image_scale_lookup :
    (AddImage (AddImage ⟨⟨300, 300⟩, []⟩ 600 600 ErrorCode.kSuccess).2 300 300
        ErrorCode.kSuccess).2.img_scale_ = [(2, 2), (1, 1)] ∧
    Process expTaylor ⟨⟨300, 300⟩, [(2, 2), (1, 1)]⟩
      ⟨ErrorCode.kSuccess, 14,
        [[[0, 0, 0, 0, 1 / 10, 9 / 10, 0, 0, 1, 1, 1, 1, 1, 1]],
         [[0, 0, 0, 0, 1 / 10, 9 / 10, 0, 0, 1, 1, 1, 1, 1, 1]]]⟩ [] = none ∧
    scaleAt [(2, 2), (1, 1)] 1 = [] ∧
    imageDetections expTaylor ⟨300, 300⟩ 14
      [[0, 0, 0, 0, 1 / 10, 9 / 10, 0, 0, 1, 1, 1, 1, 1, 1]] 1 [] = none ∧
    imageDetections expTaylor ⟨300, 300⟩ 14
      [[0, 0, 0, 0, 1 / 10, 9 / 10, 0, 0, 1, 1, 1, 1, 1, 1]] 1 [(2, 2), (1, 1)]
      = some [⟨⟨0, 0, 301, 301⟩, 9 / 10, 1⟩] := by
  refine ⟨by decide!, by decide!, by decide, by decide!, by decide!⟩

theorem forall₂_mem_left {α β : Type} (R : α → β → Prop) (l : List α) (bs : List β)
    (h : List.Forall₂ R l bs) (a : α) (ha : a ∈ l) : ∃ b ∈ bs, R a b := by
  induction h with
  | nil => cases ha
  | cons hab _ ih =>
    rcases List.mem_cons.mp ha with h1 | h1
    · subst h1
      exact ⟨_, List.mem_cons_self _ _, hab⟩
    · obtain ⟨b, hb, hr⟩ := ih h1
      exact ⟨b, List.mem_cons_of_mem _ hb, hr⟩

theorem roundDouble_scale_third :
    roundDouble (100 / 300) = 6004799503160661 / 18014398509481984 ∧
    (3 : ℚ) * (6004799503160661 / 18014398509481984) < 1 ∧
    roundDouble (3 * roundDouble (100 / 300)) = 1 := by
  refine ⟨by decide!, by decide!, by decide!⟩

theorem AddImage_scale_rounded :
    (AddImage ⟨⟨300, 300⟩, []⟩ 100 110 ErrorCode.kSuccess).2.img_scale_
      = [(6004799503160661 / 18014398509481984, 6605279453476727 / 18014398509481984)] := by
  decide!

/-- C8: in a successful run of `Process` the detections of image `k` and the
indices kept by `NmsBoxes` for that image correspond: there are as many
detections as kept indices, every detection comes from a kept index `idx` and
every kept index has its detection.  The location of that detection is the
kept box `(x, y, w, h)` times the scale pair read for the image, each product
a `double` product truncated toward zero; its confidence and species are the
score and class selected for proposal `idx`.  The scale `(2, 2)` maps the box
`(10, 10, 20, 20)` to `(20, 20, 40, 40)`; under the scale `double(100) /
double(300)` the coordinate `3` becomes `1`, the product being the double
`1.0`. -/
theorem Process_detection_rescaled (exp : ℚ → ℚ) (impl : DetectorImpl) (out : ModelOutput)
    (detections : List (List Detection)) (st : ErrorCode) (impl' : DetectorImpl)
    (result : List (List Detection))
    (h : Process exp impl out detections = some (st, impl', result))
    (hs : out.status = ErrorCode.kSuccess) :
    (∃ new, result = detections ++ new ∧ new.length = out.pred.length ∧
      ∀ (k : Nat) (p : Mat), out.pred[k]? = some p →
        ∃ dets sel indices, new[k]? = some dets ∧
          classSelect (imageConf out.dim2 p) = some sel ∧
          NmsBoxes (imageBoxes exp impl.img_size out.dim2 p) (sel.map Prod.fst)
            (1 / 100) (45 / 100) 200 = some indices ∧
          dets.length = indices.length ∧
          (∀ d ∈ dets, ∃ idx box sc scale, idx ∈ indices ∧
            (imageBoxes exp impl.img_size out.dim2 p)[idx]? = some box ∧
            sel[idx]? = some sc ∧ impl.img_scale_[k]? = some scale ∧
            d.location =
              ⟨truncToInt (roundDouble ((box.x : ℚ) * scale.1)),
                truncToInt (roundDouble ((box.y : ℚ) * scale.2)),
                truncToInt (roundDouble ((box.width : ℚ) * scale.1)),
                truncToInt (roundDouble ((box.height : ℚ) * scale.2))⟩ ∧
            d.confidence = sc.1 ∧ d.species = (sc.2 : Int)) ∧
          (∀ idx ∈ indices, ∃ d box sc scale, d ∈ dets ∧
            (imageBoxes exp impl.img_size out.dim2 p)[idx]? = some box ∧
            sel[idx]? = some sc ∧ impl.img_scale_[k]? = some scale ∧
            d.location =
              ⟨truncToInt (roundDouble ((box.x : ℚ) * scale.1)),
                truncToInt (roundDouble ((box.y : ℚ) * scale.2)),
                truncToInt (roundDouble ((box.width : ℚ) * scale.1)),
                truncToInt (roundDouble ((box.height : ℚ) * scale.2))⟩ ∧
            d.confidence = sc.1 ∧ d.species = (sc.2 : Int))) ∧
    (∀ (score : ℚ) (cls : Nat),
      (makeDetection ⟨10, 10, 20, 20⟩ (2, 2) score cls).location = ⟨20, 20, 40, 40⟩) ∧
    (∀ (score : ℚ) (cls : Nat),
      (makeDetection ⟨3, 3, 3, 3⟩ (roundDouble (100 / 300), roundDouble (100 / 300))
        score cls).location = ⟨1, 1, 1, 1⟩) := by
  refine ⟨?_, ?_, ?_⟩
  · obtain ⟨_, _, hloop⟩ := Process_spec exp impl out detections st impl' result h hs
    obtain ⟨new, hres, hlen, _, _, hk⟩ :=
      processLoop_spec exp impl.img_size out.dim2 out.pred 0 impl.img_scale_ detections _ _ hloop
    refine ⟨new, hres, hlen, ?_⟩
    intro k p hp
    obtain ⟨dets, hd1, hd2⟩ := hk k p hp
    obtain ⟨sel, indices, raw, hsel, hind, hraw, rfl⟩ := imageDetections_spec _ _ _ _ _ _ _ hd2
    have hf := buildDetections_spec _ _ _ _ _ _ hraw
    have hperm := std_sort_perm
      (fun left right : Detection => decide (left.confidence > right.confidence)) raw
    have hscale : ∀ scale : ℚ × ℚ, (scaleAt impl.img_scale_ k)[0 + k]? = some scale →
        impl.img_scale_[k]? = some scale := by
      intro scale hsc
      rw [Nat.zero_add] at hsc
      unfold scaleAt at hsc
      split at hsc
      · rename_i hk0
        rw [hk0]
        rw [hk0] at hsc
        exact hsc
      · simp at hsc
    refine ⟨_, sel, indices, hd1, hsel, hind, ?_, ?_, ?_⟩
    · rw [hperm.length_eq, hf.length_eq]
    · intro d hd
      obtain ⟨idx, hidx, scale, box, sc, hsc, hbox, hsel', rfl⟩ :=
        forall₂_mem_right _ indices raw hf d (hperm.subset hd)
      exact ⟨idx, box, sc, scale, hidx, hbox, hsel', hscale scale hsc, rfl, rfl, rfl⟩
    · intro idx hidx
      obtain ⟨d, hd, scale, box, sc, hsc, hbox, hsel', rfl⟩ :=
        forall₂_mem_left _ indices raw hf idx hidx
      exact ⟨_, box, sc, scale, hperm.symm.subset hd, hbox, hsel', hscale scale hsc,
        rfl, rfl, rfl⟩
  · intro score cls
    have e : (makeDetection ⟨10, 10, 20, 20⟩ (2, 2) score cls).location
        = (makeDetection ⟨10, 10, 20, 20⟩ (2, 2) 0 0).location := rfl
    rw [e]
    decide!
  · intro score cls
    have e : (makeDetection ⟨3, 3, 3, 3⟩ (roundDouble (100 / 300), roundDouble (100 / 300))
        score cls).location
        = (makeDetection ⟨3, 3, 3, 3⟩ (roundDouble (100 / 300), roundDouble (100 / 300))
            0 0).location := rfl
    rw [e]
    decide!

theorem Process_detection_rescaled_witness :
    (∃ new, [[(⟨⟨0, 0, 602, 602⟩, 9 / 10, 1⟩ : Detection), ⟨⟨0, 0, 302, 302⟩, 1 / 2, 2⟩]]
        = [] ++ new ∧
      new.length = [[[(0 : ℚ), 0, 0, 0, 1 / 10, 1 / 5, 1 / 2, 0, 0, 1 / 2, 1 / 2, 1, 1, 1, 1],
          [0, 0, 0, 0, 1 / 10, 9 / 10, 1 / 2, 0, 0, 1, 1, 1, 1, 1, 1]]].length ∧
      ∀ (k : Nat) (p : Mat),
        [[[(0 : ℚ), 0, 0, 0, 1 / 10, 1 / 5, 1 / 2, 0, 0, 1 / 2, 1 / 2, 1, 1, 1, 1],
          [0, 0, 0, 0, 1 / 10, 9 / 10, 1 / 2, 0, 0, 1, 1, 1, 1, 1, 1]]][k]? = some p →
        ∃ dets sel indices, new[k]? = some dets ∧
          classSelect (imageConf 15 p) = some sel ∧
          NmsBoxes (imageBoxes expTaylor ⟨300, 300⟩ 15 p) (sel.map Prod.fst)
            (1 / 100) (45 / 100) 200 = some indices ∧
          dets.length = indices.length ∧
          (∀ d ∈ dets, ∃ idx box sc scale, idx ∈ indices ∧
            (imageBoxes expTaylor ⟨300, 300⟩ 15 p)[idx]? = some box ∧
            sel[idx]? = some sc ∧ [((2 : ℚ), (2 : ℚ))][k]? = some scale ∧
            d.location =
              ⟨truncToInt (roundDouble ((box.x : ℚ) * scale.1)),
                truncToInt (roundDouble ((box.y : ℚ) * scale.2)),
                truncToInt (roundDouble ((box.width : ℚ) * scale.1)),
                truncToInt (roundDouble ((box.height : ℚ) * scale.2))⟩ ∧
            d.confidence = sc.1 ∧ d.species = (sc.2 : Int)) ∧
          (∀ idx ∈ indices, ∃ d box sc scale, d ∈ dets ∧
            (imageBoxes expTaylor ⟨300, 300⟩ 15 p)[idx]? = some box ∧
            sel[idx]? = some sc ∧ [((2 : ℚ), (2 : ℚ))][k]? = some scale ∧
            d.location =
              ⟨truncToInt (roundDouble ((box.x : ℚ) * scale.1)),
                truncToInt (roundDouble ((box.y : ℚ) * scale.2)),
                truncToInt (roundDouble ((box.width : ℚ) * scale.1)),
                truncToInt (roundDouble ((box.height : ℚ) * scale.2))⟩ ∧
            d.confidence = sc.1 ∧ d.species = (sc.2 : Int))) ∧
    (∀ (score : ℚ) (cls : Nat),
      (makeDetection ⟨10, 10, 20, 20⟩ (2, 2) score cls).location = ⟨20, 20, 40, 40⟩) ∧
    (∀ (score : ℚ) (cls : Nat),
      (makeDetection ⟨3, 3, 3, 3⟩ (roundDouble (100 / 300), roundDouble (100 / 300))
        score cls).location = ⟨1, 1, 1, 1⟩) :=
  Process_detection_rescaled expTaylor ⟨⟨300, 300⟩, [(2, 2)]⟩
    ⟨ErrorCode.kSuccess, 15,
      [[[0, 0, 0, 0, 1 / 10, 1 / 5, 1 / 2, 0, 0, 1 / 2, 1 / 2, 1, 1, 1, 1],
        [0, 0, 0, 0, 1 / 10, 9 / 10, 1 / 2, 0, 0, 1, 1, 1, 1, 1, 1]]]⟩
    [] ErrorCode.kSuccess ⟨⟨300, 300⟩, []⟩
    [[⟨⟨0, 0, 602, 602⟩, 9 / 10, 1⟩, ⟨⟨0, 0, 302, 302⟩, 1 / 2, 2⟩]] (by decide!) rfl

/-! ## The batch loop: failure and the stored scales -/

theorem Process_success_clears (exp : ℚ → ℚ) (impl : DetectorImpl) (out : ModelOutput)
    (detections : List (List Detection)) (st : ErrorCode) (impl' : DetectorImpl)
    (result : List (List Detection))
    (h : Process exp impl out detections = some (st, impl', result))
    (hs : out.status = ErrorCode.kSuccess) (hne : out.pred ≠ []) : impl'.img_scale_ = [] := by
  obtain ⟨_, _, hloop⟩ := Process_spec exp impl out detections st impl' result h hs
  obtain ⟨new, _, _, _, hcons, _⟩ :=
    processLoop_spec exp impl.img_size out.dim2 out.pred 0 impl.img_scale_ detections _ _ hloop
  exact hcons hne

/-- C12: when the inference call returns a status other than `kSuccess`,
`Process` returns exactly that status, the caller's detection list is the one
passed in and the state is unchanged. -/
theorem Process_inference_failure (exp : ℚ → ℚ) (impl : DetectorImpl) (out : ModelOutput)
    (detections : List (List Detection)) (h : out.status ≠ ErrorCode.kSuccess) :
    Process exp impl out detections = some (out.status, impl, detections) := by
  unfold Process
  rw [if_pos h]

theorem Process_inference_failure_witness :
    Process expTaylor ⟨⟨300, 300⟩, [(2, 2)]⟩
      ⟨ErrorCode.kErrorTfSession, 14, [[[0, 0, 0, 0, 1 / 10, 9 / 10, 0, 0, 1, 1, 1, 1, 1, 1]]]⟩
      [[⟨⟨1, 2, 3, 4⟩, 1 / 2, 1⟩]]
      = some (ErrorCode.kErrorTfSession, ⟨⟨300, 300⟩, [(2, 2)]⟩, [[⟨⟨1, 2, 3, 4⟩, 1 / 2, 1⟩]]) :=
  Process_inference_failure expTaylor ⟨⟨300, 300⟩, [(2, 2)]⟩
    ⟨ErrorCode.kErrorTfSession, 14, [[[0, 0, 0, 0, 1 / 10, 9 / 10, 0, 0, 1, 1, 1, 1, 1, 1]]]⟩
    [[⟨⟨1, 2, 3, 4⟩, 1 / 2, 1⟩]] (by decide)

/-- C13 fails on the code: the scale list is cleared only inside the image
loop.  A call whose inference fails returns before the loop and keeps the pair
`(2, 2)` recorded for a 600 x 600 image, and so does a successful call over an
empty batch; after a further `AddImage` of a 300 x 300 image (pair `(1, 1)`)
the next call rescales that image with the stale pair `(2, 2)`: the box
`(0, 0, 301, 301)` becomes `(0, 0, 602, 602)`. -/
theorem Process_failure_keeps_scales :
    (AddImage ⟨⟨300, 300⟩, []⟩ 600 600 ErrorCode.kSuccess).2.img_scale_ = [(2, 2)] ∧
    Process expTaylor ⟨⟨300, 300⟩, [(2, 2)]⟩ ⟨ErrorCode.kErrorTfSession, 14, []⟩ []
      = some (ErrorCode.kErrorTfSession, ⟨⟨300, 300⟩, [(2, 2)]⟩, []) ∧
    Process expTaylor ⟨⟨300, 300⟩, [(2, 2)]⟩ ⟨ErrorCode.kSuccess, 14, []⟩ []
      = some (ErrorCode.kSuccess, ⟨⟨300, 300⟩, [(2, 2)]⟩, []) ∧
    (AddImage ⟨⟨300, 300⟩, [(2, 2)]⟩ 300 300 ErrorCode.kSuccess).2.img_scale_
      = [(2, 2), (1, 1)] ∧
    Process expTaylor ⟨⟨300, 300⟩, [(2, 2), (1, 1)]⟩
      ⟨ErrorCode.kSuccess, 14, [[[0, 0, 0, 0, 1 / 10, 9 / 10, 0, 0, 1, 1, 1, 1, 1, 1]]]⟩ []
      = some (ErrorCode.kSuccess, ⟨⟨300, 300⟩, []⟩, [[⟨⟨0, 0, 602, 602⟩, 9 / 10, 1⟩]]) ∧
    imageBoxes expTaylor ⟨300, 300⟩ 14 [[0, 0, 0, 0, 1 / 10, 9 / 10, 0, 0, 1, 1, 1, 1, 1, 1]]
      = [⟨0, 0, 301, 301⟩] := by
  refine ⟨by decide!, by decide!, by decide!, by decide!, by decide!, by decide!⟩

/-! ## Images: the size check of `FromData` -/

theorem wrapInt32_of_range (n : Int) (h1 : -2147483648 ≤ n) (h2 : n < 2147483648) :
    wrapInt32 n = n := by
  unfold wrapInt32
  omega

theorem toSizeT_of_nonneg (n : Int) (h1 : 0 ≤ n) (h2 : n < 2147483648) :
    (toSizeT n : Int) = n := by
  unfold toSizeT
  omega

theorem toSizeT_of_neg (n : Int) (h1 : -2147483648 ≤ n) (h2 : n < 0) :
    (toSizeT n : Int) = n + 18446744073709551616 := by
  unfold toSizeT
  omega

theorem FromData_in_range (impl : ImageImpl) (data : List Nat) (width height channels : Int)
    (hw : 0 ≤ width) (hh : 0 ≤ height) (hwh : width * height < 2147483648)
    (hlo : -2147483648 ≤ width * height * channels)
    (hhi : width * height * channels < 2147483648)
    (hdata : (data.length : Int) < 9223372036854775808) :
    ((data.length : Int) ≠ width * height * channels →
      FromData impl data width height channels = some (ErrorCode.kErrorImageSize, impl)) ∧
    ((data.length : Int) = width * height * channels → (channels = 1 ∨ channels = 3) →
      FromData impl data width height channels
        = some (ErrorCode.kSuccess, ⟨height, width, channels, data⟩)) ∧
    ((data.length : Int) = width * height * channels → ¬ (channels = 1 ∨ channels = 3) →
      FromData impl data width height channels = some (ErrorCode.kErrorNumChann, impl)) := by
  have hwh0 : 0 ≤ width * height := mul_nonneg hw hh
  have e1 : wrapInt32 (width * height) = width * height :=
    wrapInt32_of_range _ (by omega) hwh
  have e2 : wrapInt32 (width * height * channels) = width * height * channels :=
    wrapInt32_of_range _ hlo hhi
  have key : (data.length = toSizeT (width * height * channels)) ↔
      (data.length : Int) = width * height * channels := by
    by_cases hneg : width * height * channels < 0
    · have h3 := toSizeT_of_neg _ hlo hneg
      constructor
      · intro h
        have h' : (data.length : Int) = (toSizeT (width * height * channels) : Int) := by
          rw [h]
        omega
      · intro h
        have h4 : (0 : Int) ≤ (data.length : Int) := Int.natCast_nonneg _
        omega
    · have h3 := toSizeT_of_nonneg _ (not_lt.mp hneg) hhi
      constructor
      · intro h
        rw [h]
        exact h3
      · intro h
        have : ((data.length : Int)) = (toSizeT (width * height * channels) : Int) := by
          rw [h3]; exact h
        exact_mod_cast this
  unfold FromData
  rw [e1, e2]
  refine ⟨?_, ?_, ?_⟩
  · intro hne
    rw [if_pos (fun h => hne (key.mp h))]
  · intro heq hc
    rw [if_neg (not_not.mpr (key.mpr heq)), if_pos hc, if_pos ⟨hh, hw⟩]
  · intro heq hc
    rw [if_neg (not_not.mpr (key.mpr heq)), if_neg hc]

/-- C14 fails on the code: for `width = height = 65536`, `channels = 1` the
`int` product `width * height * channels` wraps to `0`, the empty data vector
passes the size check and `FromData` returns `kSuccess` for a 65536 x 65536
image although `data.size() = 0` is not `65536 * 65536 * 1`; for
`width = height = -1` one byte passes the size check and the matrix
constructor fails, so no error code is returned. -/
theorem FromData_size_check_wraps :
    FromData ⟨2, 2, 1, [1, 2, 3, 4]⟩ [] 65536 65536 1
      = some (ErrorCode.kSuccess, ⟨65536, 65536, 1, []⟩) ∧
    ((([] : List Nat).length : Int) ≠ 65536 * 65536 * 1) ∧
    FromData ⟨2, 2, 1, [1, 2, 3, 4]⟩ [7] (-1) (-1) 1 = none := by
  refine ⟨by decide, by decide, by decide⟩

/-! ## Detection crops -/

theorem tdiv_two_bounds (d : Int) :
    (0 ≤ d → 0 ≤ Int.tdiv d 2 ∧ Int.tdiv d 2 ≤ d) ∧
    (d < 0 → d ≤ Int.tdiv d 2 ∧ Int.tdiv d 2 ≤ 0) := by
  constructor
  · intro h
    rw [Int.tdiv_eq_ediv h (by decide)]
    omega
  · intro h
    have e : d = -(-d) := by omega
    rw [e, Int.neg_tdiv, Int.tdiv_eq_ediv (by omega) (by decide)]
    omega

theorem GetDetImage_int_range (W H : Int) (det : Rect)
    (hx : 0 ≤ det.x) (hy : 0 ≤ det.y) (hw : 0 ≤ det.width) (hh : 0 ≤ det.height)
    (hxw : det.x + det.width ≤ W) (hyh : det.y + det.height ≤ H)
    (hsum : W + H < 2147483648) :
    wrapInt32 (det.width - det.height) = det.width - det.height ∧
    wrapInt32 (det.y - Int.tdiv (det.width - det.height) 2)
      = det.y - Int.tdiv (det.width - det.height) 2 ∧
    wrapInt32 (det.x + det.width) = det.x + det.width ∧
    wrapInt32 ((GetDetImage W H det).y + det.width) = (GetDetImage W H det).y + det.width ∧
    wrapInt32 (H - (GetDetImage W H det).y) = H - (GetDetImage W H det).y := by
  obtain ⟨hp, hn⟩ := tdiv_two_bounds (det.width - det.height)
  unfold GetDetImage
  simp only
  generalize Int.tdiv (det.width - det.height) 2 = d at hp hn
  by_cases hd : 0 ≤ det.width - det.height
  · obtain ⟨h1, h2⟩ := hp hd
    refine ⟨?_, ?_, ?_, ?_, ?_⟩ <;> apply wrapInt32_of_range <;> (try split_ifs) <;> omega
  · obtain ⟨h1, h2⟩ := hn (not_le.mp hd)
    refine ⟨?_, ?_, ?_, ?_, ?_⟩ <;> apply wrapInt32_of_range <;> (try split_ifs) <;> omega

/-- C16: for a detection rectangle inside a `W x H` image the rectangle that
`GetDetImage` passes to `GetSub` has `x, y >= 0`, width and height `>= 0`,
`x + width <= W` and `y + height <= H`; its `x` is the detection's `x`, and
its height equals its width unless its bottom edge is at `H`. -/
theorem GetDetImage_crop_inside (W H : Int) (det : Rect)
    (hx : 0 ≤ det.x) (hy : 0 ≤ det.y) (hw : 0 ≤ det.width) (hh : 0 ≤ det.height)
    (hxw : det.x + det.width ≤ W) (hyh : det.y + det.height ≤ H) :
    0 ≤ (GetDetImage W H det).x ∧ 0 ≤ (GetDetImage W H det).y ∧
    0 ≤ (GetDetImage W H det).width ∧ 0 ≤ (GetDetImage W H det).height ∧
    (GetDetImage W H det).x + (GetDetImage W H det).width ≤ W ∧
    (GetDetImage W H det).y + (GetDetImage W H det).height ≤ H ∧
    (GetDetImage W H det).x = det.x ∧
    ((GetDetImage W H det).height = (GetDetImage W H det).width ∨
      (GetDetImage W H det).y + (GetDetImage W H det).height = H) := by
  obtain ⟨hp, hn⟩ := tdiv_two_bounds (det.width - det.height)
  unfold GetDetImage
  simp only
  generalize Int.tdiv (det.width - det.height) 2 = d at hp hn
  by_cases hd : 0 ≤ det.width - det.height
  · obtain ⟨h1, h2⟩ := hp hd
    split_ifs <;> omega
  · obtain ⟨h1, h2⟩ := hn (not_le.mp hd)
    split_ifs <;> omega

theorem GetDetImage_crop_inside_witness :
    0 ≤ (GetDetImage 100 80 ⟨10, 60, 30, 11⟩).x ∧ 0 ≤ (GetDetImage 100 80 ⟨10, 60, 30, 11⟩).y ∧
    0 ≤ (GetDetImage 100 80 ⟨10, 60, 30, 11⟩).width ∧
    0 ≤ (GetDetImage 100 80 ⟨10, 60, 30, 11⟩).height ∧
    (GetDetImage 100 80 ⟨10, 60, 30, 11⟩).x + (GetDetImage 100 80 ⟨10, 60, 30, 11⟩).width ≤ 100 ∧
    (GetDetImage 100 80 ⟨10, 60, 30, 11⟩).y + (GetDetImage 100 80 ⟨10, 60, 30, 11⟩).height ≤ 80 ∧
    (GetDetImage 100 80 ⟨10, 60, 30, 11⟩).x = (⟨10, 60, 30, 11⟩ : Rect).x ∧
    ((GetDetImage 100 80 ⟨10, 60, 30, 11⟩).height = (GetDetImage 100 80 ⟨10, 60, 30, 11⟩).width ∨
      (GetDetImage 100 80 ⟨10, 60, 30, 11⟩).y + (GetDetImage 100 80 ⟨10, 60, 30, 11⟩).height
        = 80) :=
  GetDetImage_crop_inside 100 80 ⟨10, 60, 30, 11⟩ (by decide) (by decide) (by decide)
    (by decide) (by decide) (by decide)

/-! ## Non-maximum suppression: order and completeness -/

theorem stableDescending_fst_le (p q : ℚ × Nat) (h : stableDescending p q) : q.1 ≤ p.1 := by
  rcases h with h | ⟨h, _⟩
  · exact h.le
  · exact h.ge

theorem orderedInsert_stableDescending (a : ℚ × Nat) (l : List (ℚ × Nat))
    (hl : l.Pairwise stableDescending) (ha : ∀ b ∈ l, a.2 < b.2) :
    (List.orderedInsert
      (fun a b => (fun pair1 pair2 : ℚ × Nat => decide (pair1.1 > pair2.1)) b a = false)
      a l).Pairwise stableDescending := by
  induction l with
  | nil => simp [List.orderedInsert]
  | cons b t ih =>
    obtain ⟨hb, ht⟩ := List.pairwise_cons.mp hl
    simp only [List.orderedInsert]
    split_ifs with h
    · have hle : b.1 ≤ a.1 := by simpa using h
      refine List.pairwise_cons.mpr ⟨?_, hl⟩
      intro x hx
      have hxle : x.1 ≤ a.1 := by
        rcases List.mem_cons.mp hx with rfl | hx'
        · exact hle
        · exact le_trans (stableDescending_fst_le b x (hb x hx')) hle
      rcases lt_or_eq_of_le hxle with h1 | h1
      · exact Or.inl h1
      · exact Or.inr ⟨h1.symm, ha x hx⟩
    · have hlt : b.1 > a.1 := by simpa using h
      refine List.pairwise_cons.mpr ⟨?_, ih ht (fun x hx => ha x (List.mem_cons_of_mem b hx))⟩
      intro y hy
      rcases (List.mem_orderedInsert _).mp hy with rfl | hy'
      · exact Or.inl hlt
      · exact hb y hy'

theorem stable_sort_stableDescending (l : List (ℚ × Nat))
    (hl : l.Pairwise (fun p q => p.2 < q.2)) :
    (stable_sort (fun pair1 pair2 : ℚ × Nat => decide (pair1.1 > pair2.1)) l).Pairwise
      stableDescending := by
  unfold stable_sort
  induction l with
  | nil => simp
  | cons a l ih =>
    obtain ⟨ha, hl'⟩ := List.pairwise_cons.mp hl
    rw [List.insertionSort]
    refine orderedInsert_stableDescending a _ (ih hl') ?_
    intro b hb
    exact ha b ((List.perm_insertionSort _ l).subset hb)

theorem sortedCandidates_stableDescending (scores : List ℚ) (thr : ℚ) (top_k : Int) :
    (sortedCandidates scores thr top_k).Pairwise stableDescending := by
  have h := stable_sort_stableDescending _ (scoreIndexFrom_pairwise thr scores 0)
  unfold sortedCandidates
  simp only
  split
  · exact h.sublist (List.take_sublist _ _)
  · exact h

theorem sortedCandidates_eq_candidateOrder (scores : List ℚ) (thr : ℚ) (top_k : Int) :
    sortedCandidates scores thr top_k = candidateOrder scores thr top_k := by
  unfold sortedCandidates candidateOrder
  simp only
  by_cases hk : 0 < top_k
  · rw [if_pos hk]
    split
    · rfl
    · rename_i hn
      have := not_and.mp hn hk
      rw [List.take_of_length_le (by omega)]
  · rw [if_neg hk, if_neg (fun h => hk h.1)]

theorem nmsLoop_subset_acc (bboxes : List Rect) (thr : ℚ) (cands : List (ℚ × Nat))
    (acc : List Nat) (j : Nat) (hj : j ∈ acc) : j ∈ nmsLoop bboxes thr cands acc := by
  obtain ⟨l, h1, _⟩ := nmsLoop_append bboxes thr cands acc
  rw [h1]
  exact List.mem_append_left l hj

theorem nmsLoop_complete (bboxes : List Rect) (thr : ℚ) (c1 c2 : List (ℚ × Nat)) (s : ℚ)
    (idx : Nat) (acc : List Nat) :
    idx ∈ nmsLoop bboxes thr (c1 ++ (s, idx) :: c2) acc ∨
      ∃ j, j ∈ acc ++ c1.map Prod.snd ∧ j ∈ nmsLoop bboxes thr (c1 ++ (s, idx) :: c2) acc ∧
        ¬ overlapOk bboxes thr idx j := by
  induction c1 generalizing acc with
  | nil =>
    simp only [List.nil_append, List.map_nil, List.append_nil]
    unfold nmsLoop
    split
    · left
      exact nmsLoop_subset_acc bboxes thr c2 (acc ++ [idx]) idx (by simp)
    · rename_i hk
      right
      unfold nmsKeep at hk
      rw [List.all_eq_true] at hk
      push_neg at hk
      obtain ⟨j, hj, hjk⟩ := hk
      refine ⟨j, hj, nmsLoop_subset_acc bboxes thr c2 acc j hj, ?_⟩
      intro hok
      exact hjk (decide_eq_true hok)
  | cons c c1 ih =>
    obtain ⟨s', i'⟩ := c
    simp only [List.cons_append, List.map_cons]
    unfold nmsLoop
    split
    · rcases ih (acc ++ [i']) with h | ⟨j, hj, hres, hov⟩
      · exact Or.inl h
      · refine Or.inr ⟨j, ?_, hres, hov⟩
        simpa using hj
    · rcases ih acc with h | ⟨j, hj, hres, hov⟩
      · exact Or.inl h
      · refine Or.inr ⟨j, ?_, hres, hov⟩
        rcases List.mem_append.mp hj with h1 | h1
        · exact List.mem_append_left _ h1
        · exact List.mem_append_right _ (List.mem_cons_of_mem _ h1)

theorem sortedCandidates_sublist_sorted (scores : List ℚ) (thr : ℚ) (top_k : Int) :
    (sortedCandidates scores thr top_k).Sublist
      (stable_sort (fun pair1 pair2 : ℚ × Nat => decide (pair1.1 > pair2.1))
        (scoreIndexFrom thr scores 0)) := by
  unfold sortedCandidates
  simp only
  split
  · exact List.take_sublist _ _
  · exact List.Sublist.refl _

theorem sortedCandidates_score (scores : List ℚ) (thr : ℚ) (top_k : Int) (p : ℚ × Nat)
    (hp : p ∈ sortedCandidates scores thr top_k) : scores[p.2]? = some p.1 ∧ p.1 > thr := by
  have h := scoreIndexFrom_mem thr scores 0 p.1 p.2 (sortedCandidates_mem scores thr top_k p hp)
  exact ⟨by simpa using h.2.1, h.2.2⟩

/-- C15: the indices returned by `NmsBoxes` keep the order of the stable
descending sort of the indices above the score threshold: of two returned
indices the earlier one has the score that is at least as high, and for equal
scores the lower index. -/
theorem NmsBoxes_stable_order (bboxes : List Rect) (scores : List ℚ) (st nt : ℚ) (top_k : Int)
    (indices : List Nat) (h : NmsBoxes bboxes scores st nt top_k = some indices) :
    indices.Sublist
      ((stable_sort (fun pair1 pair2 : ℚ × Nat => decide (pair1.1 > pair2.1))
        (scoreIndexFrom st scores 0)).map Prod.snd) ∧
    (stable_sort (fun pair1 pair2 : ℚ × Nat => decide (pair1.1 > pair2.1))
        (scoreIndexFrom st scores 0)).Pairwise stableDescending ∧
    indices.Pairwise (fun i j => ∃ si sj, scores[i]? = some si ∧ scores[j]? = some sj ∧
      sj ≤ si ∧ (si = sj → i < j)) := by
  obtain ⟨_, rfl⟩ := NmsBoxes_some_iff bboxes scores st nt top_k indices h
  have hsub := nmsLoop_sublist bboxes nt (sortedCandidates scores st top_k)
  refine ⟨hsub.trans ((sortedCandidates_sublist_sorted scores st top_k).map Prod.snd),
    stable_sort_stableDescending _ (scoreIndexFrom_pairwise st scores 0), ?_⟩
  refine List.Pairwise.sublist hsub ?_
  rw [List.pairwise_map]
  refine List.Pairwise.imp_of_mem ?_ (sortedCandidates_stableDescending scores st top_k)
  intro p q hp hq hpq
  refine ⟨p.1, q.1, (sortedCandidates_score scores st top_k p hp).1,
    (sortedCandidates_score scores st top_k q hq).1, stableDescending_fst_le p q hpq, ?_⟩
  intro heq
  rcases hpq with h1 | ⟨_, h2⟩
  · exact absurd heq (ne_of_gt h1)
  · exact h2

theorem NmsBoxes_stable_order_witness :
    [2, 0, 3].Sublist
      ((stable_sort (fun pair1 pair2 : ℚ × Nat => decide (pair1.1 > pair2.1))
        (scoreIndexFrom (1 / 100) [1 / 2, 1 / 2, 9 / 10, 1 / 2] 0)).map Prod.snd) ∧
    (stable_sort (fun pair1 pair2 : ℚ × Nat => decide (pair1.1 > pair2.1))
        (scoreIndexFrom (1 / 100) [1 / 2, 1 / 2, 9 / 10, 1 / 2] 0)).Pairwise stableDescending ∧
    [2, 0, 3].Pairwise (fun i j => ∃ si sj,
      [(1 : ℚ) / 2, 1 / 2, 9 / 10, 1 / 2][i]? = some si ∧
      [(1 : ℚ) / 2, 1 / 2, 9 / 10, 1 / 2][j]? = some sj ∧ sj ≤ si ∧ (si = sj → i < j)) :=
  NmsBoxes_stable_order [⟨0, 0, 10, 10⟩, ⟨1, 1, 10, 10⟩, ⟨20, 20, 5, 5⟩, ⟨40, 40, 5, 5⟩]
    [1 / 2, 1 / 2, 9 / 10, 1 / 2] (1 / 100) (45 / 100) 200 [2, 0, 3] (by decide!)

theorem scoreIndexFrom_mem_of_score (thr : ℚ) (scores : List ℚ) (i0 j : Nat) (s : ℚ)
    (hj : scores[j]? = some s) (hs : s > thr) : (s, i0 + j) ∈ scoreIndexFrom thr scores i0 := by
  induction scores generalizing i0 j with
  | nil => simp at hj
  | cons a rest ih =>
    unfold scoreIndexFrom
    cases j with
    | zero =>
      simp only [List.getElem?_cons_zero, Option.some.injEq] at hj
      subst hj
      rw [if_pos hs]
      simp
    | succ j =>
      simp only [List.getElem?_cons_succ] at hj
      have h1 := ih (i0 + 1) j hj
      have e : i0 + 1 + j = i0 + (j + 1) := by omega
      rw [e] at h1
      split
      · exact List.mem_cons_of_mem _ h1
      · exact h1

theorem scoreIndexFrom_mem_iff (thr : ℚ) (scores : List ℚ) (s : ℚ) (i : Nat) :
    (s, i) ∈ scoreIndexFrom thr scores 0 ↔ (scores[i]? = some s ∧ s > thr) := by
  constructor
  · intro h
    have h1 := scoreIndexFrom_mem thr scores 0 s i h
    exact ⟨by simpa using h1.2.1, h1.2.2⟩
  · rintro ⟨h1, h2⟩
    simpa using scoreIndexFrom_mem_of_score thr scores 0 i s h1 h2

theorem stableDescending_ne (p q : ℚ × Nat) (h : stableDescending p q) : p ≠ q := by
  rintro rfl
  rcases h with h | ⟨_, h⟩
  · exact lt_irrefl _ h
  · exact lt_irrefl _ h

theorem stableDescending_asymm (p q : ℚ × Nat) (h1 : stableDescending p q)
    (h2 : stableDescending q p) : False := by
  rcases h1 with h1 | ⟨e1, h1⟩ <;> rcases h2 with h2 | ⟨e2, h2⟩
  · exact lt_asymm h1 h2
  · rw [e2] at h1; exact lt_irrefl _ h1
  · rw [e1] at h2; exact lt_irrefl _ h2
  · exact lt_asymm h1 h2

theorem stable_sort_isStableScoreOrder (scores : List ℚ) (thr : ℚ) :
    IsStableScoreOrder scores thr
      (stable_sort (fun pair1 pair2 : ℚ × Nat => decide (pair1.1 > pair2.1))
        (scoreIndexFrom thr scores 0)) := by
  refine ⟨?_, stable_sort_stableDescending _ (scoreIndexFrom_pairwise thr scores 0)⟩
  intro s i
  rw [(stable_sort_perm _ _).mem_iff]
  exact scoreIndexFrom_mem_iff thr scores s i

theorem IsStableScoreOrder_unique (scores : List ℚ) (thr : ℚ) (order : List (ℚ × Nat))
    (h : IsStableScoreOrder scores thr order) :
    order = stable_sort (fun pair1 pair2 : ℚ × Nat => decide (pair1.1 > pair2.1))
      (scoreIndexFrom thr scores 0) := by
  obtain ⟨hmem, hsorted⟩ := h
  obtain ⟨hmem', hsorted'⟩ := stable_sort_isStableScoreOrder scores thr
  haveI : IsAntisymm (ℚ × Nat) stableDescending :=
    ⟨fun p q h1 h2 => (stableDescending_asymm p q h1 h2).elim⟩
  refine List.eq_of_perm_of_sorted ?_ hsorted hsorted'
  refine (List.perm_ext_iff_of_nodup (hsorted.imp (fun h => stableDescending_ne _ _ h))
    (hsorted'.imp (fun h => stableDescending_ne _ _ h))).mpr ?_
  rintro ⟨s, i⟩
  rw [hmem s i, hmem' s i]

/-- C11: under the asserted preconditions `NmsBoxes` returns a list that is
greedy-complete for the stable score-descending order of the indices above the
score threshold, an order fixed by its properties alone (`IsStableScoreOrder`;
it exists).  Every entry `(s, i)` among its first `top_k` entries (all entries
when `top_k <= 0`) has `scores[i] = s > score_threshold` and, when `i` is not
returned, a returned index `j` earlier in that order whose overlap
`1 - jaccardDistance` with box `i` exceeds the threshold; the first entry of
the order is the first returned index.  For the boxes `(0, 0, 10, 10)` and
`(0, 0, 9, 10)` of overlap `9/10` with scores `9/10` and `8/10`, in either
input order, and threshold `45/100` only the box of score `9/10` is
returned. -/
theorem NmsBoxes_greedy_complete (bboxes : List Rect) (scores : List ℚ) (st nt : ℚ)
    (top_k : Int) (hlen : bboxes.length = scores.length) (hst : 0 ≤ st) (hnt : 0 ≤ nt) :
    (∃ order, IsStableScoreOrder scores st order) ∧
    (∃ indices, NmsBoxes bboxes scores st nt top_k = some indices ∧
      ∀ order, IsStableScoreOrder scores st order →
        (∀ (c1 c2 : List (ℚ × Nat)) (s : ℚ) (i : Nat),
          (if 0 < top_k then order.take top_k.toNat else order) = c1 ++ (s, i) :: c2 →
          scores[i]? = some s ∧ s > st ∧
          (i ∉ indices → ∃ j bi bj, j ∈ c1.map Prod.snd ∧ j ∈ indices ∧
            bboxes[i]? = some bi ∧ bboxes[j]? = some bj ∧ 1 - jaccardDistance bi bj > nt)) ∧
        (∀ (s : ℚ) (i : Nat) (rest : List (ℚ × Nat)),
          (if 0 < top_k then order.take top_k.toNat else order) = (s, i) :: rest →
          indices.head? = some i)) ∧
    (1 - jaccardDistance ⟨0, 0, 10, 10⟩ ⟨0, 0, 9, 10⟩ = 9 / 10 ∧
      NmsBoxes [⟨0, 0, 10, 10⟩, ⟨0, 0, 9, 10⟩] [9 / 10, 8 / 10] (1 / 100) (45 / 100) 200
        = some [0] ∧
      NmsBoxes [⟨0, 0, 9, 10⟩, ⟨0, 0, 10, 10⟩] [8 / 10, 9 / 10] (1 / 100) (45 / 100) 200
        = some [1]) := by
  refine ⟨⟨_, stable_sort_isStableScoreOrder scores st⟩,
    ⟨_, NmsBoxes_eq_some bboxes scores st nt top_k hlen hst hnt, ?_⟩,
    by decide!, by decide!, by decide!⟩
  intro order horder
  have hcand : (if 0 < top_k then order.take top_k.toNat else order)
      = sortedCandidates scores st top_k := by
    rw [IsStableScoreOrder_unique scores st order horder, sortedCandidates_eq_candidateOrder]
    rfl
  rw [hcand]
  constructor
  · intro c1 c2 s i hsplit
    have hmem : (s, i) ∈ sortedCandidates scores st top_k := by
      rw [hsplit]; simp
    obtain ⟨hs1, hs2⟩ := sortedCandidates_score scores st top_k (s, i) hmem
    refine ⟨hs1, hs2, ?_⟩
    intro hni
    rw [hsplit] at hni
    rcases nmsLoop_complete bboxes nt c1 c2 s i [] with h | ⟨j, hj, hres, hov⟩
    · exact absurd h hni
    · rw [List.nil_append] at hj
      have hi' : i < bboxes.length := by
        rw [hlen]; exact (List.getElem?_eq_some_iff.mp hs1).1
      have hj' : j < bboxes.length := by
        obtain ⟨q, hq, rfl⟩ := List.mem_map.mp hj
        have hq' : q ∈ sortedCandidates scores st top_k := by
          rw [hsplit]; exact List.mem_append_left _ hq
        rw [hlen]
        exact (List.getElem?_eq_some_iff.mp (sortedCandidates_score scores st top_k q hq').1).1
      refine ⟨j, bboxes[i], bboxes[j], hj, by rw [hsplit]; exact hres,
        List.getElem?_eq_getElem hi', List.getElem?_eq_getElem hj', ?_⟩
      unfold overlapOk at hov
      rw [List.getD_eq_getElem _ _ hi', List.getD_eq_getElem _ _ hj'] at hov
      exact not_le.mp hov
  · intro s i rest hsplit
    rw [hsplit]
    unfold nmsLoop
    have hk : nmsKeep bboxes nt [] i = true := rfl
    rw [if_pos hk]
    obtain ⟨l, h1, _⟩ := nmsLoop_append bboxes nt rest ([] ++ [i])
    rw [h1]
    rfl

theorem NmsBoxes_greedy_complete_witness :
    (∃ order, IsStableScoreOrder [8 / 10, 9 / 10, 1 / 2] (1 / 100) order) ∧
    (∃ indices, NmsBoxes [⟨0, 0, 10, 10⟩, ⟨1, 1, 10, 10⟩, ⟨20, 20, 5, 5⟩]
        [8 / 10, 9 / 10, 1 / 2] (1 / 100) (45 / 100) 200 = some indices ∧
      ∀ order, IsStableScoreOrder [8 / 10, 9 / 10, 1 / 2] (1 / 100) order →
        (∀ (c1 c2 : List (ℚ × Nat)) (s : ℚ) (i : Nat),
          (if (0 : Int) < 200 then order.take (200 : Int).toNat else order)
            = c1 ++ (s, i) :: c2 →
          [(8 : ℚ) / 10, 9 / 10, 1 / 2][i]? = some s ∧ s > 1 / 100 ∧
          (i ∉ indices → ∃ j bi bj, j ∈ c1.map Prod.snd ∧ j ∈ indices ∧
            [(⟨0, 0, 10, 10⟩ : Rect), ⟨1, 1, 10, 10⟩, ⟨20, 20, 5, 5⟩][i]? = some bi ∧
            [(⟨0, 0, 10, 10⟩ : Rect), ⟨1, 1, 10, 10⟩, ⟨20, 20, 5, 5⟩][j]? = some bj ∧
            1 - jaccardDistance bi bj > 45 / 100)) ∧
        (∀ (s : ℚ) (i : Nat) (rest : List (ℚ × Nat)),
          (if (0 : Int) < 200 then order.take (200 : Int).toNat else order) = (s, i) :: rest →
          indices.head? = some i)) ∧
    (1 - jaccardDistance ⟨0, 0, 10, 10⟩ ⟨0, 0, 9, 10⟩ = 9 / 10 ∧
      NmsBoxes [⟨0, 0, 10, 10⟩, ⟨0, 0, 9, 10⟩] [9 / 10, 8 / 10] (1 / 100) (45 / 100) 200
        = some [0] ∧
      NmsBoxes [⟨0, 0, 9, 10⟩, ⟨0, 0, 10, 10⟩] [8 / 10, 9 / 10] (1 / 100) (45 / 100) 200
        = some [1]) :=
  NmsBoxes_greedy_complete [⟨0, 0, 10, 10⟩, ⟨1, 1, 10, 10⟩, ⟨20, 20, 5, 5⟩]
    [8 / 10, 9 / 10, 1 / 2] (1 / 100) (45 / 100) 200 (by decide) (by norm_num) (by norm_num)

end OpenEM
